import Mathlib

/-!
Verification of the markdown-to-hypertext converter (`md2pdf.py`).

Text is modelled as `List Char` (named `Str` below), mirroring Python `str`
operations with explicit executable functions.  Every function named after a
Python function of the source embeds that function; regular-expression driven
substitutions are embedded by an explicit left-to-right scan engine (`scanSub`)
with one matcher per pattern, reproducing the leftmost, non-overlapping
semantics of `re.sub` for the concrete patterns the source uses (all of whose
character classes are exclusive, so greedy matching is deterministic).
-/

namespace Md

abbrev Str := List Char

/-- Python `\s` for the whitespace characters that can occur in a line
(the input is split on newline before any stripping happens). -/
def isPyWS (c : Char) : Bool :=
  c = ' ' || c = '\t' || c = '\n' || c = '\x0b' || c = '\x0c' || c = '\r'

/-- Python `str.strip()` with no argument: drop whitespace on both ends. -/
def trim (s : Str) : Str :=
  ((s.dropWhile isPyWS).reverse.dropWhile isPyWS).reverse

/-- Python `str.startswith`. -/
def startsWithL (p s : Str) : Bool := p.isPrefixOf s

/-- Python `str.endswith`. -/
def endsWithL (p s : Str) : Bool := p.isSuffixOf s

/-- Python `c in s` for a single character. -/
def containsC (c : Char) (s : Str) : Bool := s.contains c

/-- `t` occurs in `s` as a contiguous substring (Python `t in s`). -/
def Occurs (t s : Str) : Prop := ∃ a b, s = a ++ t ++ b

/-- Executable substring test matching `Occurs`. -/
def occursB (t s : Str) : Bool :=
  match s with
  | [] => t.isEmpty
  | _ :: cs => t.isPrefixOf s || occursB t cs

theorem occursB_iff (t s : Str) : occursB t s = true ↔ Occurs t s := by
  induction s with
  | nil =>
    simp only [occursB, List.isEmpty_iff, Occurs]
    constructor
    · rintro rfl; exact ⟨[], [], rfl⟩
    · rintro ⟨a, b, h⟩
      rcases List.append_eq_nil.mp h.symm with ⟨h1, h2⟩
      exact (List.append_eq_nil.mp h1).2
  | cons c cs ih =>
    simp only [occursB, Bool.or_eq_true, ih]
    constructor
    · rintro (hp | ⟨a, b, rfl⟩)
      · exact ⟨[], (c :: cs).drop t.length, by
          simpa using (List.prefix_iff_eq_append.mp (List.isPrefixOf_iff_prefix.mp hp)).symm⟩
      · exact ⟨c :: a, b, rfl⟩
    · rintro ⟨a, b, h⟩
      cases a with
      | nil =>
        left
        simp only [List.nil_append] at h
        exact List.isPrefixOf_iff_prefix.mpr ⟨b, h.symm⟩
      | cons a0 a1 =>
        right
        simp only [List.cons_append, List.cons.injEq] at h
        exact ⟨a1, b, h.2⟩

instance (t s : Str) : Decidable (Occurs t s) :=
  decidable_of_iff (occursB t s = true) (occursB_iff t s)

theorem Occurs.trans {u t s : Str} (h1 : Occurs u t) (h2 : Occurs t s) : Occurs u s := by
  rcases h1 with ⟨a, b, rfl⟩
  rcases h2 with ⟨x, y, rfl⟩
  exact ⟨x ++ a, b ++ y, by simp⟩

theorem occurs_append_left {t s : Str} (h : Occurs t s) (u : Str) : Occurs t (u ++ s) := by
  rcases h with ⟨a, b, rfl⟩
  exact ⟨u ++ a, b, by simp⟩

theorem occurs_append_right {t s : Str} (h : Occurs t s) (u : Str) : Occurs t (s ++ u) := by
  rcases h with ⟨a, b, rfl⟩
  exact ⟨a, b ++ u, by simp⟩

theorem occurs_refl (t : Str) : Occurs t t := ⟨[], [], by simp⟩

theorem occurs_of_cons {t s : Str} (c : Char) (h : Occurs t s) : Occurs t (c :: s) := by
  simpa using occurs_append_left h [c]

theorem mem_of_occurs {t s : Str} (h : Occurs t s) {c : Char} (hc : c ∈ t) : c ∈ s := by
  rcases h with ⟨a, b, rfl⟩
  simp [hc]

theorem occurs_of_pref {t s : Str} (h : t <+: s) : Occurs t s := by
  rcases h with ⟨r, rfl⟩
  exact ⟨[], r, by simp⟩

theorem occurs_of_suffix {t s : Str} (h : t <:+ s) : Occurs t s := by
  rcases h with ⟨r, rfl⟩
  exact ⟨r, [], by simp⟩

/-- Splitting a prefix of an appended list. -/
theorem prefix_split {t x y : Str} (h : t <+: x ++ y) :
    t <+: x ∨ ∃ t2, t = x ++ t2 ∧ t2 <+: y := by
  induction x generalizing t with
  | nil => exact Or.inr ⟨t, by simp, by simpa using h⟩
  | cons c x2 ih =>
    cases t with
    | nil => exact Or.inl List.nil_prefix
    | cons d t2 =>
      rw [List.cons_append, List.cons_prefix_cons] at h
      obtain ⟨rfl, h2⟩ := h
      rcases ih h2 with h3 | ⟨t3, rfl, h4⟩
      · exact Or.inl (List.cons_prefix_cons.mpr ⟨rfl, h3⟩)
      · exact Or.inr ⟨t3, by simp, h4⟩

/-- An occurrence in `x ++ y` lies in `x`, lies in `y`, or straddles the
boundary with a nonempty suffix of `x` and a nonempty prefix of `y`. -/
theorem occurs_split {t x y : Str} (h : Occurs t (x ++ y)) :
    Occurs t x ∨ Occurs t y ∨
      ∃ t1 t2, t = t1 ++ t2 ∧ t1 ≠ [] ∧ t2 ≠ [] ∧ t1 <:+ x ∧ t2 <+: y := by
  induction x generalizing t with
  | nil =>
    refine Or.inr (Or.inl ?_)
    simpa using h
  | cons c x2 ih =>
    rcases h with ⟨a, b, hc⟩
    cases a with
    | nil =>
      simp only [List.nil_append] at hc
      cases t with
      | nil => exact Or.inl ⟨[], c :: x2, by simp⟩
      | cons d t2 =>
        rw [List.cons_append, List.cons_append] at hc
        injection hc with h1 h2
        subst h1
        have hpre : t2 <+: x2 ++ y := ⟨b, h2.symm⟩
        rcases prefix_split hpre with h3 | ⟨t3, rfl, h4⟩
        · exact Or.inl (occurs_of_pref (List.cons_prefix_cons.mpr ⟨rfl, h3⟩))
        · cases t3 with
          | nil => exact Or.inl (occurs_of_pref (by simp))
          | cons e t4 =>
            refine Or.inr (Or.inr ⟨c :: x2, e :: t4, ?_, by simp, by simp,
              List.suffix_refl _, h4⟩)
            simp
    | cons a0 a1 =>
      rw [List.cons_append] at hc
      injection hc with h1 h2
      rcases ih ⟨a1, b, h2⟩ with h3 | h3 | ⟨t1, t2, rfl, h4, h5, h6, h7⟩
      · exact Or.inl (occurs_of_cons c h3)
      · exact Or.inr (Or.inl h3)
      · exact Or.inr (Or.inr ⟨t1, t2, rfl, h4, h5, h6.trans (List.suffix_cons c x2), h7⟩)

theorem occurs_nil (s : Str) : Occurs [] s := ⟨[], s, by simp⟩

theorem occurs_singleton_cases {t : Str} {d : Char} (h : Occurs t [d]) :
    t = [] ∨ t = [d] := by
  rcases h with ⟨a, b, hab⟩
  cases a with
  | nil => cases t with
    | nil => exact Or.inl rfl
    | cons e t2 => cases t2 <;> simp_all
  | cons a0 a1 => cases a1 <;> simp_all

theorem prefix_singleton_of_ne_nil {t : Str} {d : Char} (hne : t ≠ []) (h : t <+: [d]) :
    t = [d] := by
  rcases h with ⟨r, hr⟩
  cases t with
  | nil => exact absurd rfl hne
  | cons e t2 => cases t2 <;> simp_all

theorem suffix_concat_mem {t x : Str} {d : Char} (hne : t ≠ []) (h : t <:+ x ++ [d]) :
    d ∈ t := by
  rcases h with ⟨w, hw⟩
  have h2 := congrArg List.reverse hw
  simp only [List.reverse_append, List.reverse_cons, List.reverse_nil, List.nil_append] at h2
  cases ht : t.reverse with
  | nil => exact absurd (by simpa using congrArg List.reverse ht) hne
  | cons e t2 =>
    rw [ht] at h2
    have hde : e = d := by
      have h3 := congrArg List.head? h2
      simpa using h3
    have hmem : d ∈ t.reverse := by rw [ht, hde]; exact List.mem_cons_self _ _
    simpa using hmem

/-- Occurrence across a single distinguished character. -/
theorem occurs_split_char {t x y : Str} {d : Char} (h : Occurs t (x ++ d :: y)) :
    Occurs t x ∨ Occurs t y ∨ d ∈ t := by
  have h2 : Occurs t ((x ++ [d]) ++ y) := by simpa using h
  rcases occurs_split h2 with h3 | h3 | ⟨t1, t2, rfl, h4, h5, h6, h7⟩
  · rcases occurs_split h3 with h4 | h4 | ⟨t1, t2, rfl, h5, h6, h7, h8⟩
    · exact Or.inl h4
    · rcases occurs_singleton_cases h4 with rfl | rfl
      · exact Or.inl (occurs_nil x)
      · exact Or.inr (Or.inr (by simp))
    · have := prefix_singleton_of_ne_nil h6 h8
      subst this
      exact Or.inr (Or.inr (by simp))
  · exact Or.inr (Or.inl h3)
  · exact Or.inr (Or.inr (List.mem_append_left _ (suffix_concat_mem h4 h6)))

/-- Alignment of an occurrence `a ++ u ++ b` against a split `x ++ y` of the
same string: the occurrence lies in `x`, lies in `y` (with `x` inside `a`), or
straddles the boundary, in which case the head of `u` is a character of `x`
and the last character of `x` is a character of `u`. -/
theorem occurs_align {x y a u b : Str} (h : x ++ y = a ++ u ++ b) (hu : u ≠ []) :
    Occurs u x ∨ (x.length ≤ a.length ∧ Occurs u y) ∨
      ((∃ hc, u.head? = some hc ∧ hc ∈ x) ∧
        (∃ lc, x.getLast? = some lc ∧ lc ∈ u)) := by
  by_cases h1 : a.length + u.length ≤ x.length
  · left
    have hx : x = (a ++ u ++ b).take x.length := by rw [← h, List.take_left]
    have ha : a.length ≤ x.length := le_trans (Nat.le_add_right _ _) h1
    rw [List.append_assoc, List.take_append_eq_append_take,
      List.take_of_length_le ha, List.take_append_eq_append_take,
      List.take_of_length_le (by omega : u.length ≤ x.length - a.length)] at hx
    exact ⟨a, b.take (x.length - a.length - u.length), by rw [hx]; simp⟩
  · by_cases h2 : x.length ≤ a.length
    · refine Or.inr (Or.inl ⟨h2, ?_⟩)
      have hy : y = (a ++ u ++ b).drop x.length := by rw [← h, List.drop_left]
      rw [List.append_assoc, List.drop_append_eq_append_drop,
        (by omega : x.length - a.length = 0), List.drop_zero] at hy
      exact ⟨a.drop x.length, b, by rw [hy]; simp⟩
    · push_neg at h1 h2
      refine Or.inr (Or.inr ⟨?_, ?_⟩)
      · obtain ⟨uh, ut, rfl⟩ : ∃ uh ut, u = uh :: ut := by
          cases u with
          | nil => exact absurd rfl hu
          | cons uh ut => exact ⟨uh, ut, rfl⟩
        refine ⟨uh, rfl, ?_⟩
        have e1 : x[a.length]? = (x ++ y)[a.length]? :=
          (List.getElem?_append_left h2).symm
        rw [h, List.append_assoc, List.getElem?_append_right (le_refl a.length)] at e1
        simp only [Nat.sub_self] at e1
        have e2 : x[a.length]? = some uh := by simpa using e1
        exact List.getElem?_mem e2
      · have hxne : x ≠ [] := by
          intro hxe
          rw [hxe] at h2
          simp at h2
        have e1 : x[x.length - 1]? = (x ++ y)[x.length - 1]? :=
          (List.getElem?_append_left (by omega)).symm
        rw [h, List.append_assoc,
          List.getElem?_append_right (by omega : a.length ≤ x.length - 1),
          List.getElem?_append_left (by omega : x.length - 1 - a.length < u.length)] at e1
        have e2 : u[x.length - 1 - a.length]? =
            some (u.get ⟨x.length - 1 - a.length, by omega⟩) :=
          List.getElem?_eq_getElem (by omega)
        rw [e2] at e1
        refine ⟨u.get ⟨x.length - 1 - a.length, by omega⟩, ?_, List.get_mem u _ _⟩
        rw [List.getLast?_eq_getElem?, e1]

theorem suffix_singleton_of_ne_nil {t : Str} {d : Char} (hne : t ≠ []) (h : t <:+ [d]) :
    t = [d] := by
  rcases h with ⟨r, hr⟩
  cases r with
  | nil => simpa using hr
  | cons r0 r1 =>
    rcases t with _ | ⟨e, t2⟩
    · exact absurd rfl hne
    · simp only [List.cons_append] at hr
      injection hr with h1 h2
      exact absurd h2 (by simp)

/-! ### The `re.sub` scan engine

`scanSub m fuel s` scans `s` left to right.  At each position the matcher `m`
is consulted on the remaining suffix: on `some (k, rep)` the next `k`
characters are replaced by `rep` and scanning resumes after them (the
replacement is not rescanned), on `none` one character is copied.  This is the
semantics of Python `re.sub` (and of `str.replace`) for patterns that match at
least one character.  The fuel argument is instantiated with the length of the
scanned string, which suffices because every match consumes at least one
character. -/

def scanSub (m : Str → Option (Nat × Str)) : Nat → Str → Str
  | 0, s => s
  | _ + 1, [] => []
  | fuel + 1, c :: cs =>
    match m (c :: cs) with
    | some (k, rep) => rep ++ scanSub m fuel ((c :: cs).drop k)
    | none => c :: scanSub m fuel cs

/-- If no match can start inside `u`, a scan of `u2 ++ b` (`u2` a suffix of
`u`) copies `u2` verbatim. -/
theorem scanSub_copy {m : Str → Option (Nat × Str)} {u : Str}
    (hns : ∀ u2 b, u2 ≠ [] → u2 <:+ u → m (u2 ++ b) = none) :
    ∀ fuel u2 b, u2 <:+ u → ∃ y, scanSub m fuel (u2 ++ b) = u2 ++ y := by
  intro fuel
  induction fuel with
  | zero => exact fun u2 b _ => ⟨b, rfl⟩
  | succ f ih =>
    intro u2 b hsuf
    cases u2 with
    | nil => exact ⟨scanSub m (f + 1) b, by simp [List.nil_append]⟩
    | cons c u3 =>
      have hm : m (c :: (u3 ++ b)) = none := by
        simpa using hns (c :: u3) b (by simp) hsuf
      rcases ih u3 b ((List.suffix_cons c u3).trans hsuf) with ⟨y, hy⟩
      refine ⟨y, ?_⟩
      rw [List.cons_append]
      simp [scanSub, hm, hy]

/-- Preservation: an occurrence of `u` survives one scan pass when no match
starts inside `u` and every match either stays left of `u` or carries `u`
into its replacement. -/
theorem scanSub_preserves {m : Str → Option (Nat × Str)} {u : Str}
    (hns : ∀ u2 b, u2 ≠ [] → u2 <:+ u → m (u2 ++ b) = none)
    (hcov : ∀ s k rep a b, m s = some (k, rep) → s = a ++ u ++ b →
      k ≤ a.length ∨ Occurs u rep) :
    ∀ fuel s, Occurs u s → Occurs u (scanSub m fuel s) := by
  intro fuel
  induction fuel with
  | zero => exact fun s h => h
  | succ f ih =>
    intro s h
    rcases h with ⟨a, b, rfl⟩
    cases ha : a with
    | nil =>
      subst ha
      rcases scanSub_copy hns (f + 1) u b (List.suffix_refl u) with ⟨y, hy⟩
      exact ⟨[], y, by simpa using hy⟩
    | cons c a2 =>
      subst ha
      have hs : (c :: a2) ++ u ++ b = c :: (a2 ++ u ++ b) := by simp
      rw [hs]
      cases hm : m (c :: (a2 ++ u ++ b)) with
      | none =>
        simp only [scanSub, hm]
        exact occurs_of_cons c (ih _ ⟨a2, b, rfl⟩)
      | some kr =>
        obtain ⟨k, rep⟩ := kr
        simp only [scanSub, hm]
        rcases hcov _ _ _ (c :: a2) b hm (by simp) with hk | hrep
        · have hdrop : (c :: (a2 ++ u ++ b)).drop k = (c :: a2).drop k ++ u ++ b := by
            rw [← hs, List.append_assoc, List.drop_append_eq_append_drop,
              (by simpa using Nat.sub_eq_zero_of_le hk : k - (c :: a2).length = 0),
              List.drop_zero, List.append_assoc]
          rw [hdrop]
          exact occurs_append_left (ih _ ⟨(c :: a2).drop k, b, rfl⟩) rep
        · exact occurs_append_right hrep _

/-- A nonempty prefix of a scan result whose characters all satisfy `P`
is a prefix of the scanned string, provided replacements start with a
non-`P` character. -/
theorem scanSub_prefix_back {m : Str → Option (Nat × Str)} {P : Char → Bool}
    (hrep : ∀ s k rep, m s = some (k, rep) →
      ∃ rh rt, rep = rh :: rt ∧ P rh = false) :
    ∀ fuel s p, p ≠ [] → (∀ c ∈ p, P c = true) →
      p <+: scanSub m fuel s → p <+: s := by
  intro fuel
  induction fuel with
  | zero => exact fun s p _ _ h => h
  | succ f ih =>
    intro s p hp hPp h
    cases s with
    | nil =>
      simp only [scanSub] at h
      rcases p with _ | ⟨p0, p1⟩
      · exact absurd rfl hp
      · exact absurd (List.prefix_nil.mp h) (by simp)
    | cons c cs =>
      cases hm : m (c :: cs) with
      | some kr =>
        obtain ⟨k, rep⟩ := kr
        simp only [scanSub, hm] at h
        obtain ⟨rh, rt, rfl, hPrh⟩ := hrep _ _ _ hm
        rcases p with _ | ⟨p0, p1⟩
        · exact absurd rfl hp
        · rw [List.cons_append, List.cons_prefix_cons] at h
          obtain ⟨rfl, -⟩ := h
          have h5 : P p0 = true := hPp p0 (List.mem_cons_self _ _)
          simp [hPrh] at h5
      | none =>
        simp only [scanSub, hm] at h
        rcases p with _ | ⟨p0, p1⟩
        · exact absurd rfl hp
        · rw [List.cons_prefix_cons] at h
          obtain ⟨rfl, h2⟩ := h
          rcases p1 with _ | ⟨q0, q1⟩
          · simpa using List.nil_prefix
          · have := ih cs (q0 :: q1) (by simp)
              (fun d hd => hPp d (List.mem_cons_of_mem _ hd)) h2
            exact List.cons_prefix_cons.mpr ⟨rfl, this⟩

/-- After replacing every occurrence of `t` (the matcher fires on every
`t`-prefix), no occurrence of `t` remains, provided replacements neither
contain `t` nor expose a `P`-character at either end. -/
theorem scanSub_removes {m : Str → Option (Nat × Str)} {t : Str} {P : Char → Bool}
    (ht : t ≠ []) (htP : ∀ c ∈ t, P c = true)
    (hrep : ∀ s k rep, m s = some (k, rep) → ¬ Occurs t rep ∧
      (∃ rh rt, rep = rh :: rt ∧ P rh = false) ∧
      (∃ rl rs, rep = rs ++ [rl] ∧ P rl = false))
    (hk1 : ∀ s k rep, m s = some (k, rep) → 1 ≤ k)
    (hfire : ∀ s, t.isPrefixOf s → m s ≠ none) :
    ∀ fuel s, s.length ≤ fuel → ¬ Occurs t (scanSub m fuel s) := by
  intro fuel
  induction fuel with
  | zero =>
    intro s hlen h
    have : s = [] := List.length_eq_zero.mp (Nat.le_zero.mp hlen)
    subst this
    rcases h with ⟨a, b, hab⟩
    exact ht (by simpa using (List.append_eq_nil.mp
      (List.append_eq_nil.mp hab.symm).1).2)
  | succ f ih =>
    intro s hlen h
    cases s with
    | nil =>
      simp only [scanSub] at h
      rcases h with ⟨a, b, hab⟩
      exact ht (by simpa using (List.append_eq_nil.mp
        (List.append_eq_nil.mp hab.symm).1).2)
    | cons c cs =>
      cases hm : m (c :: cs) with
      | some kr =>
        obtain ⟨k, rep⟩ := kr
        simp only [scanSub, hm] at h
        obtain ⟨hrep1, ⟨rh, rt, hrh, hPrh⟩, ⟨rl, rs, hrl, hPrl⟩⟩ := hrep _ _ _ hm
        rcases occurs_split h with h2 | h2 | ⟨t1, t2, heq, h3, h4, h5, h6⟩
        · exact hrep1 h2
        · have hk := hk1 _ _ _ hm
          refine ih ((c :: cs).drop k) ?_ h2
          simp only [List.length_drop, List.length_cons] at *
          omega
        · rw [hrl] at h5
          have := suffix_concat_mem h3 h5
          have hmem : rl ∈ t := heq ▸ List.mem_append_left _ this
          exact absurd (htP _ hmem) (by simp [hPrl])
      | none =>
        simp only [scanSub, hm] at h
        have h2 : Occurs t ([c] ++ scanSub m f cs) := by simpa using h
        rcases occurs_split h2 with h3 | h3 | ⟨t1, t2, heq, h4, h5, h6, h7⟩
        · rcases occurs_singleton_cases h3 with rfl | rfl
          · exact ht rfl
          · exact hfire _ (by simp [List.isPrefixOf_iff_prefix]) hm
        · exact ih cs (by simpa using Nat.le_of_succ_le_succ hlen) h3
        · have ht1 : t1 = [c] := suffix_singleton_of_ne_nil h4 h6
          subst ht1
          have hpre : t2 <+: cs := by
            refine scanSub_prefix_back (fun s k rep hmr => (hrep _ _ _ hmr).2.1)
              f cs t2 h5 ?_ h7
            exact fun d hd => htP d (heq ▸ List.mem_append_right _ hd)
          have : t <+: c :: cs := by
            rw [heq]
            exact List.cons_prefix_cons.mpr ⟨rfl, hpre⟩
          exact hfire _ (List.isPrefixOf_iff_prefix.mpr this) hm

/-- A scan pass cannot create an occurrence of `t` when replacements neither
contain `t` nor expose a `P`-character at either end. -/
theorem scanSub_no_creation {m : Str → Option (Nat × Str)} {t : Str} {P : Char → Bool}
    (ht : t ≠ []) (htP : ∀ c ∈ t, P c = true)
    (hrep : ∀ s k rep, m s = some (k, rep) → ¬ Occurs t rep ∧
      (∃ rh rt, rep = rh :: rt ∧ P rh = false) ∧
      (∃ rl rs, rep = rs ++ [rl] ∧ P rl = false)) :
    ∀ fuel s, ¬ Occurs t s → ¬ Occurs t (scanSub m fuel s) := by
  intro fuel
  induction fuel with
  | zero => exact fun s hs h => hs h
  | succ f ih =>
    intro s hs h
    cases s with
    | nil => exact hs (by simpa using h)
    | cons c cs =>
      cases hm : m (c :: cs) with
      | some kr =>
        obtain ⟨k, rep⟩ := kr
        simp only [scanSub, hm] at h
        obtain ⟨hrep1, ⟨rh, rt, hrh, hPrh⟩, ⟨rl, rs, hrl, hPrl⟩⟩ := hrep _ _ _ hm
        rcases occurs_split h with h2 | h2 | ⟨t1, t2, heq, h3, h4, h5, h6⟩
        · exact hrep1 h2
        · refine ih ((c :: cs).drop k) ?_ h2
          intro hocc
          exact hs (hocc.trans (occurs_of_suffix (List.drop_suffix _ _)))
        · rw [hrl] at h5
          have := suffix_concat_mem h3 h5
          have hmem : rl ∈ t := heq ▸ List.mem_append_left _ this
          exact absurd (htP _ hmem) (by simp [hPrl])
      | none =>
        simp only [scanSub, hm] at h
        have h2 : Occurs t ([c] ++ scanSub m f cs) := by simpa using h
        rcases occurs_split h2 with h3 | h3 | ⟨t1, t2, heq, h4, h5, h6, h7⟩
        · rcases occurs_singleton_cases h3 with rfl | rfl
          · exact ht rfl
          · exact hs ⟨[], cs, rfl⟩
        · exact ih cs (fun hocc => hs (occurs_of_cons c hocc)) h3
        · have ht1 : t1 = [c] := suffix_singleton_of_ne_nil h4 h6
          subst ht1
          have hpre : t2 <+: cs := by
            refine scanSub_prefix_back (fun s k rep hmr => (hrep _ _ _ hmr).2.1)
              f cs t2 h5 ?_ h7
            exact fun d hd => htP d (heq ▸ List.mem_append_right _ hd)
          exact hs (occurs_of_pref (by
            rw [heq]; exact List.cons_prefix_cons.mpr ⟨rfl, hpre⟩))

/-- If `t` occurs and the matcher fires on every `t`-prefix with replacement
`v`, then `v` occurs in the scan result. -/
theorem scanSub_inserts {m : Str → Option (Nat × Str)} {t v : Str} (ht : t ≠ [])
    (hrepv : ∀ s k rep, m s = some (k, rep) → rep = v)
    (hfire : ∀ s, t.isPrefixOf s → m s ≠ none) :
    ∀ fuel s, s.length ≤ fuel → Occurs t s → Occurs v (scanSub m fuel s) := by
  intro fuel
  induction fuel with
  | zero =>
    intro s hlen hocc
    have : s = [] := List.length_eq_zero.mp (Nat.le_zero.mp hlen)
    subst this
    rcases hocc with ⟨a, b, hab⟩
    exact absurd (by simpa using (List.append_eq_nil.mp
      (List.append_eq_nil.mp hab.symm).1).2) ht
  | succ f ih =>
    intro s hlen hocc
    cases s with
    | nil =>
      rcases hocc with ⟨a, b, hab⟩
      exact absurd (by simpa using (List.append_eq_nil.mp
        (List.append_eq_nil.mp hab.symm).1).2) ht
    | cons c cs =>
      cases hm : m (c :: cs) with
      | some kr =>
        obtain ⟨k, rep⟩ := kr
        simp only [scanSub, hm]
        have := hrepv _ _ _ hm
        subst this
        exact occurs_append_right (occurs_refl rep) _
      | none =>
        simp only [scanSub, hm]
        rcases hocc with ⟨a, b, hab⟩
        cases a with
        | nil =>
          exfalso
          refine hfire (c :: cs) ?_ hm
          exact List.isPrefixOf_iff_prefix.mpr ⟨b, by simpa using hab.symm⟩
        | cons a0 a1 =>
          rw [List.cons_append, List.cons_append] at hab
          injection hab with h1 h2
          exact occurs_of_cons c (ih cs (by simpa using Nat.le_of_succ_le_succ hlen)
            ⟨a1, b, h2⟩)

/-- Scanning never shortens the string when replacements are at least as long
as what they consume. -/
theorem scanSub_length_ge {m : Str → Option (Nat × Str)}
    (hlen : ∀ s k rep, m s = some (k, rep) → k ≤ s.length ∧ k ≤ rep.length) :
    ∀ fuel s, s.length ≤ (scanSub m fuel s).length := by
  intro fuel
  induction fuel with
  | zero => exact fun s => le_refl _
  | succ f ih =>
    intro s
    cases s with
    | nil => simp [scanSub]
    | cons c cs =>
      cases hm : m (c :: cs) with
      | some kr =>
        obtain ⟨k, rep⟩ := kr
        obtain ⟨hk, hr⟩ := hlen _ _ _ hm
        simp only [scanSub, hm, List.length_append]
        have h2 := ih ((c :: cs).drop k)
        simp only [List.length_drop] at h2
        simp only [List.length_cons] at *
        omega
      | none =>
        simp only [scanSub, hm, List.length_cons]
        exact Nat.succ_le_succ (ih cs)

/-- Scanning strictly lengthens the string when some occurrence of `t` is
present, the matcher fires on every `t`-prefix, and replacements are strictly
longer than what they consume. -/
theorem scanSub_length_gt {m : Str → Option (Nat × Str)} {t : Str} (ht : t ≠ [])
    (hlen : ∀ s k rep, m s = some (k, rep) → k ≤ s.length ∧ k < rep.length)
    (hfire : ∀ s, t.isPrefixOf s → m s ≠ none) :
    ∀ fuel s, s.length ≤ fuel → Occurs t s →
      s.length < (scanSub m fuel s).length := by
  intro fuel
  induction fuel with
  | zero =>
    intro s hle hocc
    have : s = [] := List.length_eq_zero.mp (Nat.le_zero.mp hle)
    subst this
    rcases hocc with ⟨a, b, hab⟩
    exact absurd (by simpa using (List.append_eq_nil.mp
      (List.append_eq_nil.mp hab.symm).1).2) ht
  | succ f ih =>
    intro s hle hocc
    cases s with
    | nil =>
      rcases hocc with ⟨a, b, hab⟩
      exact absurd (by simpa using (List.append_eq_nil.mp
        (List.append_eq_nil.mp hab.symm).1).2) ht
    | cons c cs =>
      cases hm : m (c :: cs) with
      | some kr =>
        obtain ⟨k, rep⟩ := kr
        obtain ⟨hk, hr⟩ := hlen _ _ _ hm
        simp only [scanSub, hm, List.length_append]
        have h2 := scanSub_length_ge (m := m) (fun s k rep hmr =>
          ⟨(hlen _ _ _ hmr).1, le_of_lt (hlen _ _ _ hmr).2⟩) f ((c :: cs).drop k)
        simp only [List.length_drop] at h2
        simp only [List.length_cons] at *
        omega
      | none =>
        simp only [scanSub, hm, List.length_cons]
        rcases hocc with ⟨a, b, hab⟩
        cases a with
        | nil =>
          exfalso
          refine hfire (c :: cs) ?_ hm
          exact List.isPrefixOf_iff_prefix.mpr ⟨b, by simpa using hab.symm⟩
        | cons a0 a1 =>
          rw [List.cons_append, List.cons_append] at hab
          injection hab with h1 h2
          exact Nat.succ_lt_succ (ih cs (by simpa using Nat.le_of_succ_le_succ hle)
            ⟨a1, b, h2⟩)

/-- A scan over a string free of trigger characters is the identity. -/
theorem scanSub_id {m : Str → Option (Nat × Str)} {trig : Char → Bool}
    (htrig : ∀ c cs, m (c :: cs) ≠ none → trig c = true) :
    ∀ fuel s, (∀ c ∈ s, trig c = false) → scanSub m fuel s = s := by
  intro fuel
  induction fuel with
  | zero => exact fun s _ => rfl
  | succ f ih =>
    intro s hs
    cases s with
    | nil => rfl
    | cons c cs =>
      cases hm : m (c :: cs) with
      | some kr =>
        exfalso
        have := htrig c cs (by simp [hm])
        simp [hs c (by simp)] at this
      | none =>
        simp only [scanSub, hm]
        rw [ih cs (fun d hd => hs d (List.mem_cons_of_mem _ hd))]

/-! ### Inline formatter (`process_inline_formatting`) -/

/-- The operator/structural character class of the math pattern
`[+\-*/=<>^_{}\\]`. -/
def isMathSpecial (c : Char) : Bool :=
  c = '+' || c = '-' || c = '*' || c = '/' || c = '=' || c = '<' || c = '>' ||
  c = '^' || c = '_' || c = '\x7b' || c = '\x7d' || c = '\\'

/-- Greek letters `[α-ωΑ-Ω]` of the math pattern. -/
def isGreekLetter (c : Char) : Bool :=
  (0x3B1 ≤ c.toNat && c.toNat ≤ 0x3C9) || (0x391 ≤ c.toNat && c.toNat ≤ 0x3A9)

/-- A span content matches the protected math pattern
`[^$]*(?:[+\-*/=<>^_{}\\]|\\[a-zA-Z]+|[α-ωΑ-Ω])[^$]*` exactly when it contains
an operator/structural character or a Greek letter (a backslash-word starts
with a backslash, which is itself in the structural class). -/
def isMathTrigger (c : Char) : Bool := isMathSpecial c || isGreekLetter c

def digitChar (n : Nat) : Char := Char.ofNat (48 + n)

/-- Decimal digits of a natural number (the characters Python interpolates
for the placeholder counter). -/
def natDigitsAux : Nat → Nat → Str → Str
  | 0, _, acc => acc
  | fuel + 1, n, acc =>
    if n < 10 then digitChar n :: acc
    else natDigitsAux fuel (n / 10) (digitChar (n % 10) :: acc)

def natDigits (n : Nat) : Str := natDigitsAux (n + 1) n []

/-- `f'__MATH_PLACEHOLDER_{math_counter}__'`. -/
def placeholder (n : Nat) : Str :=
  "__MATH_PLACEHOLDER_".data ++ natDigits n ++ "__".data

/-- `f'\\({math_content}\\)'`. -/
def mathWrap (content : Str) : Str := '\\' :: '(' :: (content ++ ['\\', ')'])

/-- Leftmost match of the inline math pattern
`\$([^$]*(?:[+\-*/=<>^_{}\\]|\\[a-zA-Z]+|[α-ωΑ-Ω])[^$]*)\$`: returns the text
before the match, the group between the two dollars, and the text after the
closing dollar.  On a dollar whose span to the next dollar has no trigger
character the regex engine fails at that position and advances one character,
exactly as encoded here. -/
def findSpan : Str → Option (Str × Str × Str)
  | [] => none
  | c :: cs =>
    let skip := (findSpan cs).map (fun p => (c :: p.1, p.2.1, p.2.2))
    if c = '$' then
      match cs.dropWhile (· != '$') with
      | _ :: rest2 =>
        if (cs.takeWhile (· != '$')).any isMathTrigger then
          some ([], cs.takeWhile (· != '$'), rest2)
        else skip
      | [] => skip
    else skip

/-- The protection loop of `re.sub(math_pattern, protect_math, text)`:
rewrites each matched span to a fresh placeholder and records the
`\( … \)` replacement, in match order. -/
def protectAux : Nat → Nat → Str → Str × List (Str × Str)
  | 0, _, s => (s, [])
  | fuel + 1, n, s =>
    match findSpan s with
    | none => (s, [])
    | some (a, content, r) =>
      let pr := protectAux fuel (n + 1) r
      (a ++ placeholder n ++ pr.1, (placeholder n, mathWrap content) :: pr.2)

def protectMath (s : Str) : Str × List (Str × Str) := protectAux s.length 0 s

def strongWrap (content : Str) : Str :=
  "<strong>".data ++ content ++ "</strong>".data

/-- Matcher for `\*\*([^*]+)\*\*`. -/
def boldMatch (s : Str) : Option (Nat × Str) :=
  match s with
  | c1 :: c2 :: cs =>
    if c1 = '*' ∧ c2 = '*' then
      let content := cs.takeWhile (· != '*')
      match cs.dropWhile (· != '*') with
      | d1 :: d2 :: _ =>
        if d1 = '*' ∧ d2 = '*' ∧ content ≠ [] then
          some (content.length + 4, strongWrap content)
        else none
      | _ => none
    else none
  | _ => none

def emWrap (content : Str) : Str := "<em>".data ++ content ++ "</em>".data

/-- Matcher for `\*([^*]+)\*`. -/
def italicMatch (s : Str) : Option (Nat × Str) :=
  match s with
  | c1 :: cs =>
    if c1 = '*' then
      let content := cs.takeWhile (· != '*')
      match cs.dropWhile (· != '*') with
      | _ :: _ => if content ≠ [] then some (content.length + 2, emWrap content) else none
      | [] => none
    else none
  | [] => none

def codeWrap (content : Str) : Str := "<code>".data ++ content ++ "</code>".data

/-- Matcher for `` `([^`]+)` ``. -/
def codeMatch (s : Str) : Option (Nat × Str) :=
  match s with
  | c1 :: cs =>
    if c1 = '`' then
      let content := cs.takeWhile (· != '`')
      match cs.dropWhile (· != '`') with
      | _ :: _ => if content ≠ [] then some (content.length + 2, codeWrap content) else none
      | [] => none
    else none
  | [] => none

def imgWrap (alt url : Str) : Str :=
  "<img src=\"".data ++ url ++ "\" alt=\"".data ++ alt ++
  "\" style=\"max-width: 100%; height: auto; display: block; margin: 20px auto; border: 1px solid #ddd; border-radius: 5px; box-shadow: 0 2px 8px rgba(0,0,0,0.1);\" />".data

/-- Matcher for `!\[([^\]]*)\]\(([^)]+)\)`. -/
def imageMatch (s : Str) : Option (Nat × Str) :=
  match s with
  | c1 :: c2 :: cs =>
    if c1 = '!' ∧ c2 = '[' then
      let alt := cs.takeWhile (· != ']')
      match cs.dropWhile (· != ']') with
      | _ :: d2 :: cs2 =>
        if d2 = '(' then
          let url := cs2.takeWhile (· != ')')
          match cs2.dropWhile (· != ')') with
          | _ :: _ =>
            if url ≠ [] then
              some (2 + alt.length + 2 + url.length + 1, imgWrap alt url)
            else none
          | [] => none
        else none
      | _ => none
    else none
  | _ => none

def aWrap (text url : Str) : Str :=
  "<a href=\"".data ++ url ++ "\">".data ++ text ++ "</a>".data

/-- Matcher for `\[([^\]]+)\]\(([^)]+)\)`. -/
def linkMatch (s : Str) : Option (Nat × Str) :=
  match s with
  | c1 :: cs =>
    if c1 = '[' then
      let text := cs.takeWhile (· != ']')
      match cs.dropWhile (· != ']') with
      | _ :: d2 :: cs2 =>
        if d2 = '(' then
          let url := cs2.takeWhile (· != ')')
          match cs2.dropWhile (· != ')') with
          | _ :: _ =>
            if text ≠ [] ∧ url ≠ [] then
              some (1 + text.length + 2 + url.length + 1, aWrap text url)
            else none
          | [] => none
        else none
      | _ => none
    else none
  | [] => none

/-- Matcher encoding Python `str.replace(t, v)` as a scan. -/
def replMatch (t v : Str) (s : Str) : Option (Nat × Str) :=
  if t ≠ [] ∧ t.isPrefixOf s then some (t.length, v) else none

/-- Python `str.replace` (all occurrences, left to right, non-overlapping). -/
def replaceAll (s t v : Str) : Str := scanSub (replMatch t v) s.length s

/-- The restoration loop: `for placeholder, math_content in
math_placeholders.items(): text = text.replace(placeholder, math_content)`. -/
def restoreMath (phs : List (Str × Str)) (t : Str) : Str :=
  phs.foldl (fun acc e => replaceAll acc e.1 e.2) t

/-- `process_inline_formatting`: protect inline math, then bold, italic,
inline code, image, link substitutions, then restore the protected math. -/
def process_inline_formatting (text : Str) : Str :=
  let p := protectMath text
  let t1 := scanSub boldMatch p.1.length p.1
  let t2 := scanSub italicMatch t1.length t1
  let t3 := scanSub codeMatch t2.length t2
  let t4 := scanSub imageMatch t3.length t3
  let t5 := scanSub linkMatch t4.length t4
  restoreMath p.2 t5

/-! ### Leaf utilities (`escape_html`, `generate_id`) -/

/-- `escape_html`: the five replacements in source order (ampersand first). -/
def escape_html (text : Str) : Str :=
  let t1 := replaceAll text ['&'] "&amp;".data
  let t2 := replaceAll t1 ['<'] "&lt;".data
  let t3 := replaceAll t2 ['>'] "&gt;".data
  let t4 := replaceAll t3 ['"'] "&quot;".data
  replaceAll t4 ['\x27'] "&#39;".data

/-- Python `\w` for the character ranges this development exercises: ASCII
alphanumerics and underscore.  (Python also counts non-ASCII letters as word
characters; none occur in the verified claims, and the CJK range of the slug
pattern is handled separately below.) -/
def isWordChar (c : Char) : Bool := c.isAlphanum || c = '_'

/-- A character kept by the slug pattern `[^\w一-鿿]`. -/
def slugKeep (c : Char) : Bool :=
  isWordChar c || (0x4E00 ≤ c.toNat && c.toNat ≤ 0x9FFF)

/-- `re.sub(r'-+', '-', s)`: collapse runs of hyphens. -/
def collapseDashes : Str → Str
  | [] => []
  | [c] => [c]
  | c1 :: c2 :: cs =>
    if c1 = '-' ∧ c2 = '-' then collapseDashes (c2 :: cs)
    else c1 :: collapseDashes (c2 :: cs)

/-- `generate_id`: non-word characters to hyphens, collapse hyphens, strip
hyphens, lower-case; empty cleans fall back to `'heading'`. -/
def generate_id (text : Str) : Str :=
  let c1 := text.map (fun c => if slugKeep c then c else '-')
  let c2 := collapseDashes c1
  let c3 := (((c2.dropWhile (· == '-')).reverse).dropWhile (· == '-')).reverse
  if c3 = [] then "heading".data else c3.map Char.toLower

/-! ### Block classifier (`convert_md_to_html_body`) -/

/-- Python `str.split(sep)` for a one-character separator. -/
def splitOnChar (sep : Char) : Str → List Str
  | [] => [[]]
  | c :: cs =>
    let r := splitOnChar sep cs
    if c = sep then [] :: r
    else
      match r with
      | h :: t => (c :: h) :: t
      | [] => [[c]]

/-- `'|' in line and line.strip().startswith('|') and line.strip().endswith('|')`. -/
def isTableStart (l : Str) : Bool :=
  containsC '|' l && startsWithL ['|'] (trim l) && endsWithL ['|'] (trim l)

/-- The table collection loop: `while i < len(lines) and '|' in lines[i]:
table_lines.append(lines[i].strip())`. -/
def collectTableLines (lines : List Str) : List Str :=
  (lines.takeWhile (fun x => containsC '|' x)).map trim

def tableRest (lines : List Str) : List Str :=
  lines.dropWhile (fun x => containsC '|' x)

/-- `[cell.strip() for cell in row.split('|')[1:-1]]`. -/
def rowCells (row : Str) : List Str :=
  (((splitOnChar '|' row).drop 1).dropLast).map trim

/-- The table fragment lines emitted for the collected (stripped) run. -/
def tableFrag (tl : List Str) : List Str :=
  if tl = [] then []
  else
    let header := tl.headD []
    let headPart := ["<table>".data, "<thead>".data, "<tr>".data] ++
      (rowCells header).map
        (fun h => "<th>".data ++ process_inline_formatting h ++ "</th>".data) ++
      ["</tr>".data, "</thead>".data]
    let dataStart := if 1 < tl.length && occursB "---".data (tl.getD 1 []) then 2 else 1
    let bodyPart :=
      if dataStart < tl.length then
        "<tbody>".data ::
          ((tl.drop dataStart).map (fun row =>
            "<tr>".data ::
              (rowCells row).map
                (fun cell => "<td>".data ++ process_inline_formatting cell ++ "</td>".data) ++
              ["</tr>".data])).join ++
          ["</tbody>".data]
      else []
    headPart ++ bodyPart ++ ["</table>".data]

/-- The leading-`#` counting loop of the heading branch. -/
def countHashes : Str → Nat
  | '#' :: r => countHashes r + 1
  | _ => 0

/-- The heading fragment: level from the leading-`#` count (uncapped), title
from the rest of the line stripped, id from the slug generator. -/
def headingFrag (l : Str) : Str :=
  let level := countHashes l
  let title := trim (l.drop level)
  "<h".data ++ natDigits level ++ " id=\"".data ++ generate_id title ++ "\">".data ++
    process_inline_formatting title ++ "</h".data ++ natDigits level ++ ">".data

/-- `line.strip().startswith('- ') or line.strip().startswith('* ')`. -/
def isULStart (l : Str) : Bool :=
  startsWithL "- ".data (trim l) || startsWithL "* ".data (trim l)

def ulFrag (run : List Str) : List Str :=
  "<ul>".data ::
    run.map (fun x =>
      "<li>".data ++ process_inline_formatting ((trim x).drop 2) ++ "</li>".data) ++
    ["</ul>".data]

/-- `re.match(r'^\d+\.\s', s)`: one or more digits, a dot, one whitespace. -/
def isOLItem (s : Str) : Bool :=
  let ds := s.takeWhile Char.isDigit
  !ds.isEmpty &&
    (match s.drop ds.length with
     | '.' :: c :: _ => isPyWS c
     | _ => false)

/-- `re.sub(r'^\d+\.\s', '', s)`: strip the matched item marker. -/
def stripOL (s : Str) : Str := s.drop ((s.takeWhile Char.isDigit).length + 2)

def mathBlockDiv (content : Str) : Str :=
  "<div class=\"math-block\">$$".data ++ content ++ "$$</div>".data

/-- A continuation line is indented by three spaces or a tab. -/
def isIndentCont (l : Str) : Bool :=
  startsWithL "   ".data l || startsWithL "\t".data l

/-- Rendering of one ordered-list continuation line. -/
def renderCont (l : Str) : Str :=
  let content := trim l
  if startsWithL "$$".data content && endsWithL "$$".data content then
    mathBlockDiv (((content.drop 2).dropLast).dropLast)
  else process_inline_formatting content

/-- The inner continuation loop of an ordered-list item: skip blank lines,
append indented lines, stop at anything else. -/
def takeCont : List Str → List Str × List Str
  | [] => ([], [])
  | l :: ls =>
    if (trim l).isEmpty then takeCont ls
    else if isIndentCont l then
      let pr := takeCont ls
      (renderCont l :: pr.1, pr.2)
    else ([], l :: ls)

/-- The outer ordered-list loop, fuel-indexed (`olLoop` instantiates the fuel
with the line count, which suffices since every iteration consumes a line). -/
def olLoopF : Nat → List Str → List Str × List Str
  | 0, ls => ([], ls)
  | _ + 1, [] => ([], [])
  | fuel + 1, l :: ls =>
    let cur := trim l
    if isOLItem cur then
      let pr := takeCont ls
      let item := "<li>".data ++
        (process_inline_formatting (stripOL cur) :: pr.1).join ++ "</li>".data
      let nxt := olLoopF fuel pr.2
      (item :: nxt.1, nxt.2)
    else if cur.isEmpty then
      match ls with
      | [] => ([], [])
      | l2 :: _ => if isOLItem (trim l2) then olLoopF fuel ls else ([], ls)
    else ([], l :: ls)

def olLoop (ls : List Str) : List Str × List Str := olLoopF ls.length ls

/-- `line.strip().startswith('>')`. -/
def isQuote (l : Str) : Bool := startsWithL ">".data (trim l)

def quoteFrag (run : List Str) : List Str :=
  "<blockquote>".data ::
    run.map (fun x =>
      "<p>".data ++ process_inline_formatting (trim ((trim x).drop 1)) ++ "</p>".data) ++
    ["</blockquote>".data]

/-- Single-line math block: strip starts and ends with `$$` and is longer
than four characters. -/
def isSingleMath (l : Str) : Bool :=
  startsWithL "$$".data (trim l) && endsWithL "$$".data (trim l) &&
    decide (4 < (trim l).length)

def singleMathFrag (l : Str) : Str :=
  mathBlockDiv ((((trim l).drop 2).dropLast).dropLast)

/-- Opening code-fence fragment with the language tag `line[3:].strip()`. -/
def openCodeFrag (l : Str) : Str :=
  "<pre><code class=\"language-".data ++ trim (l.drop 3) ++ "\">".data

def closeCodeFrag : Str := "</code></pre>".data

/-- The (negated) paragraph-loop condition: a line on which the paragraph
collection of the source stops. -/
def paraBreak (l : Str) : Bool :=
  (trim l).isEmpty || startsWithL "#".data l || startsWithL "- ".data (trim l) ||
  startsWithL "* ".data (trim l) || isOLItem (trim l) ||
  startsWithL ">".data (trim l) || startsWithL "```".data l

def paraFrag (run : List Str) : Str :=
  "<p>".data ++ process_inline_formatting (List.intercalate [' '] run) ++ "</p>".data

/-- The main classification loop of `convert_md_to_html_body`, fuel-indexed;
`none` models a loop that failed to consume its input within `fuel`
iterations (shown impossible for `fuel = lines.length`). -/
def go : Nat → Bool → Bool → List Str → Option (List Str)
  | 0, _, _, lines => if lines.isEmpty then some [] else none
  | fuel + 1, inCode, inMath, lines =>
    match lines with
    | [] => some []
    | l :: ls =>
      if startsWithL "```".data l then
        if !inCode then (go fuel true inMath ls).map (fun r => openCodeFrag l :: r)
        else (go fuel false inMath ls).map (fun r => closeCodeFrag :: r)
      else if inCode then (go fuel inCode inMath ls).map (fun r => escape_html l :: r)
      else if isSingleMath l then
        (go fuel inCode inMath ls).map (fun r => singleMathFrag l :: r)
      else if trim l = "$$".data then
        if !inMath then
          (go fuel inCode true ls).map (fun r => "<div class=\"math-block\">$$".data :: r)
        else (go fuel inCode false ls).map (fun r => "$$</div>".data :: r)
      else if inMath then (go fuel inCode inMath ls).map (fun r => l :: r)
      else if startsWithL "#".data l then
        (go fuel inCode inMath ls).map (fun r => headingFrag l :: r)
      else if isULStart l then
        (go fuel inCode inMath ((l :: ls).dropWhile isULStart)).map
          (fun r => ulFrag ((l :: ls).takeWhile isULStart) ++ r)
      else if isTableStart l then
        (go fuel inCode inMath (tableRest (l :: ls))).map
          (fun r => tableFrag (collectTableLines (l :: ls)) ++ r)
      else if isOLItem (trim l) then
        (go fuel inCode inMath (olLoop (l :: ls)).2).map
          (fun r => ("<ol>".data :: (olLoop (l :: ls)).1 ++ ["</ol>".data]) ++ r)
      else if isQuote l then
        (go fuel inCode inMath ((l :: ls).dropWhile isQuote)).map
          (fun r => quoteFrag ((l :: ls).takeWhile isQuote) ++ r)
      else if (trim l).isEmpty then (go fuel inCode inMath ls).map (fun r => [] :: r)
      else if ((l :: ls).takeWhile (fun x => !paraBreak x)).isEmpty then
        go fuel inCode inMath ((l :: ls).dropWhile (fun x => !paraBreak x))
      else
        (go fuel inCode inMath ((l :: ls).dropWhile (fun x => !paraBreak x))).map
          (fun r => paraFrag ((l :: ls).takeWhile (fun x => !paraBreak x)) :: r)

/-- The classifier on a line sequence. -/
def convertLines (lines : List Str) : Option (List Str) :=
  go lines.length false false lines

/-- `convert_md_to_html_body`: split on newline, classify, join fragments
with newlines.  (`convertLines` is total by `c4_classifier_total`; the `[]`
default is unreachable.) -/
def convert_md_to_html_body (content : Str) : Str :=
  match convertLines (splitOnChar '\n' content) with
  | some frags => List.intercalate ['\n'] frags
  | none => []

/-! ### Driver (`markdown_to_html`, `convert_markdown_to_html`)

The static presentational shell around the body is emitted verbatim by the
source and carries no logic; its text is abbreviated here (no claim depends
on it). -/

def htmlTemplateStart : Str := "<!DOCTYPE html>(head and style shell)<body>".data

def htmlTemplateEnd : Str := "(script shell)</body></html>".data

def markdown_to_html (content : Str) : Str :=
  htmlTemplateStart ++ convert_md_to_html_body content ++ htmlTemplateEnd

/-- The file-system effects visible to one conversion call: the outcome of
reading the source (`none` models `FileNotFoundError` or any other read
exception) and whether writing the destination succeeds. -/
structure FS where
  readResult : Option Str
  writeOk : Bool

/-- `convert_markdown_to_html`, with the two `try/except` blocks modelled by
`FS`: returns the boolean success flag and the content written to the
destination (`none` when nothing is written). -/
def convert_markdown_to_html (fs : FS) : Bool × Option Str :=
  match fs.readResult with
  | none => (false, none)
  | some content =>
    if fs.writeOk then (true, some (markdown_to_html content))
    else (false, none)

/-! ### Statement-side definitions -/

/-- The character alphabet of placeholder tokens: underscore, upper-case
letters, decimal digits. -/
def phChar (c : Char) : Bool := c = '_' || c.isUpper || c.isDigit

/-- The fixed part of every placeholder token. -/
def phPrefix : Str := "__MATH_PLACEHOLDER_".data

/-- A line that (after trimming) both starts and ends with a pipe. -/
def pipeBounded (l : Str) : Bool :=
  startsWithL ['|'] (trim l) && endsWithL ['|'] (trim l)

/-! ## Lemmas about placeholders -/

theorem digitChar_phChar {n : Nat} (h : n < 10) : phChar (digitChar n) = true := by
  interval_cases n <;> decide

theorem natDigitsAux_phChar :
    ∀ fuel n acc, (∀ c ∈ acc, phChar c = true) →
      ∀ c ∈ natDigitsAux fuel n acc, phChar c = true := by
  intro fuel
  induction fuel with
  | zero => exact fun n acc hacc => hacc
  | succ f ih =>
    intro n acc hacc c hc
    simp only [natDigitsAux] at hc
    split at hc
    · rcases List.mem_cons.mp hc with rfl | h2
      · exact digitChar_phChar (by omega)
      · exact hacc _ h2
    · refine ih _ _ ?_ _ hc
      intro d hd
      rcases List.mem_cons.mp hd with rfl | h2
      · exact digitChar_phChar (Nat.mod_lt _ (by omega))
      · exact hacc _ h2

theorem placeholder_phChar (n : Nat) : ∀ c ∈ placeholder n, phChar c = true := by
  intro c hc
  simp only [placeholder, List.mem_append] at hc
  rcases hc with (h | h) | h
  · revert h; revert c; decide
  · exact natDigitsAux_phChar _ _ _ (by intro d hd; simp at hd) _ h
  · revert h; revert c; decide

theorem placeholder_ne_nil (n : Nat) : placeholder n ≠ [] := by
  simp [placeholder, phPrefix]

theorem phPrefix_prefix_placeholder (n : Nat) : phPrefix <+: placeholder n := by
  exact ⟨natDigits n ++ "__".data, by simp [placeholder, phPrefix]⟩

theorem occurs_phPrefix_of_placeholder {n : Nat} {s : Str}
    (h : Occurs (placeholder n) s) : Occurs phPrefix s :=
  (occurs_of_pref (phPrefix_prefix_placeholder n)).trans h

/-- The characters of `mathWrap` delimiters are not placeholder characters,
so a placeholder-alphabet occurrence inside `mathWrap c` is inside `c`. -/
theorem occurs_mathWrap {t c : Str} (ht : t ≠ []) (htP : ∀ d ∈ t, phChar d = true)
    (h : Occurs t (mathWrap c)) : Occurs t c := by
  have hbs : ('\\' : Char) ∉ t := fun hm => absurd (htP _ hm) (by decide)
  have hlp : ('(' : Char) ∉ t := fun hm => absurd (htP _ hm) (by decide)
  have hrp : (')' : Char) ∉ t := fun hm => absurd (htP _ hm) (by decide)
  have h1 : Occurs t ([] ++ '\\' :: ('(' :: (c ++ '\\' :: [')']))) := by
    simpa [mathWrap] using h
  rcases occurs_split_char h1 with h2 | h2 | h2
  · rcases h2 with ⟨a, b, hab⟩
    exact absurd (by simpa using (List.append_eq_nil.mp
      (List.append_eq_nil.mp hab.symm).1).2) ht
  · have h3 : Occurs t ([] ++ '(' :: (c ++ '\\' :: [')'])) := by simpa using h2
    rcases occurs_split_char h3 with h4 | h4 | h4
    · rcases h4 with ⟨a, b, hab⟩
      exact absurd (by simpa using (List.append_eq_nil.mp
        (List.append_eq_nil.mp hab.symm).1).2) ht
    · rcases occurs_split_char h4 with h5 | h5 | h5
      · exact h5
      · rcases occurs_singleton_cases h5 with rfl | rfl
        · exact absurd rfl ht
        · exact absurd (by simp : (')' : Char) ∈ [')']) hrp
      · exact absurd h5 hbs
    · exact absurd h4 hlp
  · exact absurd h2 hbs

theorem mathWrap_shape_head (c : Str) :
    ∃ rh rt, mathWrap c = rh :: rt ∧ phChar rh = false :=
  ⟨'\\', _, rfl, by decide⟩

theorem mathWrap_shape_last (c : Str) :
    ∃ rl rs, mathWrap c = rs ++ [rl] ∧ phChar rl = false := by
  refine ⟨')', '\\' :: '(' :: (c ++ ['\\']), ?_, by decide⟩
  simp [mathWrap]

/-! ## Lemmas about `replaceAll` -/

theorem suffix_getLast? {u2 u : Str} (h : u2 <:+ u) (hne : u2 ≠ []) :
    u.getLast? = u2.getLast? := by
  rcases h with ⟨w, rfl⟩
  cases u2 with
  | nil => exact absurd rfl hne
  | cons c cs => exact List.getLast?_append_cons w c cs

theorem replMatch_eq_some {t v s : Str} {k : Nat} {rep : Str}
    (h : replMatch t v s = some (k, rep)) :
    t ≠ [] ∧ t <+: s ∧ k = t.length ∧ rep = v := by
  simp only [replMatch] at h
  split at h
  · rename_i hcond
    injection h with h2
    injection h2 with h3 h4
    exact ⟨hcond.1, List.isPrefixOf_iff_prefix.mp hcond.2, h3.symm, h4.symm⟩
  · exact absurd h (by simp)

/-- No `t`-match can start inside `u` when `t` does not occur in `u`, the
head of `u` is not a character of `t`, and the last character of `u` is not a
character of `t`. -/
theorem replMatch_no_start {t v u : Str}
    (hocc : ¬ Occurs t u)
    (hlast : ∀ ul, u.getLast? = some ul → ul ∉ t) :
    ∀ u2 b, u2 ≠ [] → u2 <:+ u → replMatch t v (u2 ++ b) = none := by
  intro u2 b hne hsuf
  simp only [replMatch]
  split
  · rename_i hcond
    exfalso
    rcases prefix_split (List.isPrefixOf_iff_prefix.mp hcond.2) with hp | ⟨t2, rfl, hp⟩
    · exact hocc ((occurs_of_pref hp).trans (occurs_of_suffix hsuf))
    · have hul : u.getLast? = u2.getLast? := suffix_getLast? hsuf hne
      cases h2 : u2.getLast? with
      | none => exact hne (List.getLast?_eq_none_iff.mp h2)
      | some ul =>
        refine hlast ul (hul.trans h2) ?_
        exact List.mem_append_left _ (List.mem_of_mem_getLast? h2)
  · rfl

theorem replMatch_cov {t v u : Str}
    (hocc : ¬ Occurs u t)
    (hhead : ∀ uh, u.head? = some uh → uh ∉ t) :
    ∀ s k rep a b, replMatch t v s = some (k, rep) → s = a ++ u ++ b →
      k ≤ a.length ∨ Occurs u rep := by
  intro s k rep a b hm hs
  obtain ⟨htne, hpre, rfl, rfl⟩ := replMatch_eq_some hm
  by_cases hune : u = []
  · subst hune
    exact Or.inr (occurs_nil _)
  · left
    have hsplit : t ++ s.drop t.length = a ++ u ++ b := by
      rcases hpre with ⟨r, rfl⟩
      simpa using hs
    rcases occurs_align hsplit hune with h2 | h2 | ⟨⟨hc, hhc, hmem⟩, -⟩
    · exact absurd h2 hocc
    · exact h2.1
    · exact absurd hmem (hhead hc hhc)

/-- Python `str.replace` preserves an occurrence of `u` when the pattern does
not occur in `u`, does not contain `u`, and shares neither `u`'s first nor
last character. -/
theorem replaceAll_preserves {t v u : Str}
    (h1 : ¬ Occurs t u) (h2 : ¬ Occurs u t)
    (hhead : ∀ uh, u.head? = some uh → uh ∉ t)
    (hlast : ∀ ul, u.getLast? = some ul → ul ∉ t) :
    ∀ s, Occurs u s → Occurs u (replaceAll s t v) := by
  intro s hocc
  exact scanSub_preserves (replMatch_no_start h1 hlast)
    (replMatch_cov h2 hhead) s.length s hocc

/-- Replacing `t` by `v` leaves `v` occurring whenever `t` occurred. -/
theorem replaceAll_inserts {t v : Str} (ht : t ≠ []) :
    ∀ s, Occurs t s → Occurs v (replaceAll s t v) := by
  intro s hocc
  refine scanSub_inserts ht (fun s2 k rep hm => (replMatch_eq_some hm).2.2.2)
    (fun s2 hp => ?_) s.length s (le_refl _) hocc
  simp [replMatch, ht, hp]

/-- After replacing every occurrence of `t` (alphabet `P`) by a replacement
that does not contain `t` and has non-`P` characters at both ends, `t` no
longer occurs. -/
theorem replaceAll_removes {t v : Str} {P : Char → Bool} (ht : t ≠ [])
    (htP : ∀ c ∈ t, P c = true) (hv : ¬ Occurs t v)
    (hvh : ∃ rh rt, v = rh :: rt ∧ P rh = false)
    (hvl : ∃ rl rs, v = rs ++ [rl] ∧ P rl = false) :
    ∀ s, ¬ Occurs t (replaceAll s t v) := by
  intro s
  refine scanSub_removes ht htP
    (fun s2 k rep hm => ?_)
    (fun s2 k rep hm => by
      obtain ⟨ht2, -, rfl, -⟩ := replMatch_eq_some hm
      exact List.length_pos.mpr ht2)
    (fun s2 hp => by simp [replMatch, ht, hp]) s.length s (le_refl _)
  obtain ⟨-, -, -, rfl⟩ := replMatch_eq_some hm
  exact ⟨hv, hvh, hvl⟩

/-- A replace pass cannot create an occurrence of a token `t` (alphabet `P`)
that was absent, when the replacement does not contain `t` and has non-`P`
characters at both ends. -/
theorem replaceAll_no_creation {t2 v t : Str} {P : Char → Bool} (ht : t ≠ [])
    (htP : ∀ c ∈ t, P c = true) (hv : ¬ Occurs t v)
    (hvh : ∃ rh rt, v = rh :: rt ∧ P rh = false)
    (hvl : ∃ rl rs, v = rs ++ [rl] ∧ P rl = false) :
    ∀ s, ¬ Occurs t s → ¬ Occurs t (replaceAll s t2 v) := by
  intro s hs
  refine scanSub_no_creation ht htP (fun s2 k rep hm => ?_) s.length s hs
  obtain ⟨-, -, -, rfl⟩ := replMatch_eq_some hm
  exact ⟨hv, hvh, hvl⟩

theorem replaceAll_preserves_char {t v : Str} {u0 : Char} (htne : t ≠ [])
    (h2 : u0 ∉ t) : ∀ s, Occurs [u0] s → Occurs [u0] (replaceAll s t v) := by
  refine replaceAll_preserves ?_ ?_ ?_ ?_
  · intro h
    rcases occurs_singleton_cases h with rfl | rfl
    · exact htne rfl
    · exact h2 (by simp)
  · intro h
    exact h2 (mem_of_occurs h (by simp))
  · intro uh hh
    simp only [List.head?_cons, Option.some.injEq] at hh
    subst hh
    exact h2
  · intro ul hl
    simp only [List.getLast?_singleton, Option.some.injEq] at hl
    subst hl
    exact h2

theorem replaceAll_length_ge {t v : Str} (hlen : t.length ≤ v.length) :
    ∀ s, s.length ≤ (replaceAll s t v).length := by
  intro s
  refine scanSub_length_ge (fun s2 k rep hm => ?_) s.length s
  obtain ⟨-, hpre, rfl, rfl⟩ := replMatch_eq_some hm
  exact ⟨hpre.length_le, hlen⟩

theorem replaceAll_length_gt {t v : Str} (ht : t ≠ []) (hlen : t.length < v.length) :
    ∀ s, Occurs t s → s.length < (replaceAll s t v).length := by
  intro s hocc
  refine scanSub_length_gt ht (fun s2 k rep hm => ?_)
    (fun s2 hp => by simp [replMatch, ht, hp]) s.length s (le_refl _) hocc
  obtain ⟨-, hpre, rfl, rfl⟩ := replMatch_eq_some hm
  exact ⟨hpre.length_le, hlen⟩

/-! ## HTML escaping (claim C8) -/

theorem occurs_singleton_of_mem {c : Char} {s : Str} (h : c ∈ s) : Occurs [c] s := by
  obtain ⟨a, b, rfl⟩ := List.append_of_mem h
  exact ⟨a, b, by simp⟩

/-- Whatever special character a string contains, its escape contains a raw
ampersand (every named reference starts with one). -/
theorem escape_html_has_amp {s : Str} {c : Char} (hc : c ∈ s)
    (hspec : c = '&' ∨ c = '<' ∨ c = '>' ∨ c = '"' ∨ c = '\x27') :
    Occurs ['&'] (escape_html s) := by
  have h0 : Occurs [c] s := occurs_singleton_of_mem hc
  show Occurs ['&'] (replaceAll (replaceAll (replaceAll (replaceAll
    (replaceAll s ['&'] "&amp;".data) ['<'] "&lt;".data) ['>'] "&gt;".data)
    ['"'] "&quot;".data) ['\x27'] "&#39;".data)
  rcases hspec with rfl | rfl | rfl | rfl | rfl
  · have i1 := replaceAll_inserts (t := ['&']) (v := "&amp;".data) (by simp) s h0
    have a1 : Occurs ['&'] (replaceAll s ['&'] "&amp;".data) :=
      (by decide : Occurs ['&'] "&amp;".data).trans i1
    exact replaceAll_preserves_char (by simp) (by decide) _
      (replaceAll_preserves_char (by simp) (by decide) _
        (replaceAll_preserves_char (by simp) (by decide) _
          (replaceAll_preserves_char (by simp) (by decide) _ a1)))
  · have p1 := replaceAll_preserves_char (t := ['&']) (v := "&amp;".data)
      (by simp) (by decide) s h0
    have i2 := replaceAll_inserts (t := ['<']) (v := "&lt;".data) (by simp) _ p1
    have a2 : Occurs ['&'] (replaceAll (replaceAll s ['&'] "&amp;".data)
        ['<'] "&lt;".data) := (by decide : Occurs ['&'] "&lt;".data).trans i2
    exact replaceAll_preserves_char (by simp) (by decide) _
      (replaceAll_preserves_char (by simp) (by decide) _
        (replaceAll_preserves_char (by simp) (by decide) _ a2))
  · have p1 := replaceAll_preserves_char (t := ['&']) (v := "&amp;".data)
      (by simp) (by decide) s h0
    have p2 := replaceAll_preserves_char (t := ['<']) (v := "&lt;".data)
      (by simp) (by decide) _ p1
    have i3 := replaceAll_inserts (t := ['>']) (v := "&gt;".data) (by simp) _ p2
    have a3 : Occurs ['&'] (replaceAll (replaceAll (replaceAll s ['&'] "&amp;".data)
        ['<'] "&lt;".data) ['>'] "&gt;".data) :=
      (by decide : Occurs ['&'] "&gt;".data).trans i3
    exact replaceAll_preserves_char (by simp) (by decide) _
      (replaceAll_preserves_char (by simp) (by decide) _ a3)
  · have p1 := replaceAll_preserves_char (t := ['&']) (v := "&amp;".data)
      (by simp) (by decide) s h0
    have p2 := replaceAll_preserves_char (t := ['<']) (v := "&lt;".data)
      (by simp) (by decide) _ p1
    have p3 := replaceAll_preserves_char (t := ['>']) (v := "&gt;".data)
      (by simp) (by decide) _ p2
    have i4 := replaceAll_inserts (t := ['"']) (v := "&quot;".data) (by simp) _ p3
    have a4 : Occurs ['&'] (replaceAll (replaceAll (replaceAll (replaceAll s
        ['&'] "&amp;".data) ['<'] "&lt;".data) ['>'] "&gt;".data)
        ['"'] "&quot;".data) := (by decide : Occurs ['&'] "&quot;".data).trans i4
    exact replaceAll_preserves_char (by simp) (by decide) _ a4
  · have p1 := replaceAll_preserves_char (t := ['&']) (v := "&amp;".data)
      (by simp) (by decide) s h0
    have p2 := replaceAll_preserves_char (t := ['<']) (v := "&lt;".data)
      (by simp) (by decide) _ p1
    have p3 := replaceAll_preserves_char (t := ['>']) (v := "&gt;".data)
      (by simp) (by decide) _ p2
    have p4 := replaceAll_preserves_char (t := ['"']) (v := "&quot;".data)
      (by simp) (by decide) _ p3
    have i5 := replaceAll_inserts (t := ['\x27']) (v := "&#39;".data) (by simp) _ p4
    exact (by decide : Occurs ['&'] "&#39;".data).trans i5

/-- Escaping a string that contains an ampersand strictly lengthens it. -/
theorem escape_html_length_gt {s : Str} (h : Occurs ['&'] s) :
    s.length < (escape_html s).length := by
  show s.length < (replaceAll (replaceAll (replaceAll (replaceAll
    (replaceAll s ['&'] "&amp;".data) ['<'] "&lt;".data) ['>'] "&gt;".data)
    ['"'] "&quot;".data) ['\x27'] "&#39;".data).length
  have l1 := replaceAll_length_gt (t := ['&']) (v := "&amp;".data)
    (by simp) (by decide) s h
  have l2 := replaceAll_length_ge (t := ['<']) (v := "&lt;".data) (by decide)
    (replaceAll s ['&'] "&amp;".data)
  have l3 := replaceAll_length_ge (t := ['>']) (v := "&gt;".data) (by decide)
    (replaceAll (replaceAll s ['&'] "&amp;".data) ['<'] "&lt;".data)
  have l4 := replaceAll_length_ge (t := ['"']) (v := "&quot;".data) (by decide)
    (replaceAll (replaceAll (replaceAll s ['&'] "&amp;".data) ['<'] "&lt;".data)
      ['>'] "&gt;".data)
  have l5 := replaceAll_length_ge (t := ['\x27']) (v := "&#39;".data) (by decide)
    (replaceAll (replaceAll (replaceAll (replaceAll s ['&'] "&amp;".data)
      ['<'] "&lt;".data) ['>'] "&gt;".data) ['"'] "&quot;".data)
  omega

/-- C8: HTML escaping is not idempotent: for every string containing at least
one of the five special characters (ampersand, less-than, greater-than,
double quote, single quote), escaping twice differs from escaping once. -/
theorem c8_escape_html_not_idempotent (s : Str)
    (h : ∃ c ∈ s, c = '&' ∨ c = '<' ∨ c = '>' ∨ c = '"' ∨ c = '\x27') :
    escape_html (escape_html s) ≠ escape_html s := by
  obtain ⟨c, hc, hspec⟩ := h
  have hamp : Occurs ['&'] (escape_html s) := escape_html_has_amp hc hspec
  have hlt := escape_html_length_gt hamp
  intro heq
  rw [heq] at hlt
  exact lt_irrefl _ hlt

/-- Witness for C8 at the concrete input `"<"`. -/
theorem c8_escape_html_not_idempotent_witness :
    (∃ c ∈ ("<".data : Str), c = '&' ∨ c = '<' ∨ c = '>' ∨ c = '"' ∨ c = '\x27') ∧
      escape_html (escape_html "<".data) ≠ escape_html "<".data :=
  ⟨by decide, c8_escape_html_not_idempotent "<".data (by decide)⟩

/-! ## No-op facts about the substitution passes -/

theorem scanSub_nil (m : Str → Option (Nat × Str)) (fuel : Nat) :
    scanSub m fuel [] = [] := by
  cases fuel <;> rfl

/-- A pass is the identity on strings all of whose characters make the
matcher fail at every position. -/
theorem scanSub_of_no_match {m : Str → Option (Nat × Str)} {P : Char → Bool}
    (hnone : ∀ c cs, (∀ d ∈ c :: cs, P d = true) → m (c :: cs) = none) :
    ∀ fuel s, (∀ c ∈ s, P c = true) → scanSub m fuel s = s := by
  intro fuel
  induction fuel with
  | zero => exact fun s _ => rfl
  | succ f ih =>
    intro s hs
    cases s with
    | nil => rfl
    | cons c cs =>
      have hm := hnone c cs hs
      simp only [scanSub, hm]
      rw [ih cs (fun d hd => hs d (List.mem_cons_of_mem _ hd))]

theorem boldMatch_none {c : Char} {cs : Str} (h : c ≠ '*') :
    boldMatch (c :: cs) = none := by
  cases cs with
  | nil => rfl
  | cons c2 cs2 => simp [boldMatch, h]

theorem italicMatch_none {c : Char} {cs : Str} (h : c ≠ '*') :
    italicMatch (c :: cs) = none := by
  simp [italicMatch, h]

theorem codeMatch_none {c : Char} {cs : Str} (h : c ≠ '`') :
    codeMatch (c :: cs) = none := by
  simp [codeMatch, h]

theorem imageMatch_none {c : Char} {cs : Str} (h : ∀ d ∈ c :: cs, d ≠ '[') :
    imageMatch (c :: cs) = none := by
  cases cs with
  | nil => rfl
  | cons c2 cs2 => simp [imageMatch, h c2 (by simp)]

theorem linkMatch_none {c : Char} {cs : Str} (h : c ≠ '[') :
    linkMatch (c :: cs) = none := by
  simp [linkMatch, h]

theorem findSpan_none {s : Str} (h : ∀ c ∈ s, c ≠ '$') : findSpan s = none := by
  induction s with
  | nil => rfl
  | cons c cs ih =>
    have hc : c ≠ '$' := h c (by simp)
    simp [findSpan, hc, ih (fun d hd => h d (List.mem_cons_of_mem _ hd))]

theorem protectAux_no_dollar {s : Str} (h : ∀ c ∈ s, c ≠ '$') (fuel n : Nat) :
    protectAux fuel n s = (s, []) := by
  cases fuel with
  | zero => rfl
  | succ f => simp [protectAux, findSpan_none h]

/-- Append/takeWhile: a block of satisfying characters followed by a failing
character splits cleanly. -/
theorem takeWhile_append_block {p : Char → Bool} {l r : Str} {x : Char}
    (hl : ∀ c ∈ l, p c = true) (hx : p x = false) :
    (l ++ x :: r).takeWhile p = l := by
  induction l with
  | nil => simp [List.takeWhile_cons, hx]
  | cons c cs ih =>
    simp [List.cons_append, List.takeWhile_cons, hl c (by simp),
      ih (fun d hd => hl d (List.mem_cons_of_mem _ hd))]

theorem dropWhile_append_block {p : Char → Bool} {l r : Str} {x : Char}
    (hl : ∀ c ∈ l, p c = true) (hx : p x = false) :
    (l ++ x :: r).dropWhile p = x :: r := by
  induction l with
  | nil => simp [List.dropWhile_cons, hx]
  | cons c cs ih =>
    simp only [List.cons_append, List.dropWhile_cons, hl c (by simp)]
    exact ih (fun d hd => hl d (List.mem_cons_of_mem _ hd))

/-- The code-span pass on a well-formed span: rewrite and continue after the
closing backtick. -/
theorem codeSub_step {content rest : Str} (hne : content ≠ [])
    (hfree : ∀ c ∈ content, c ≠ '`') (f : Nat) :
    scanSub codeMatch (f + 1) ('`' :: (content ++ '`' :: rest)) =
      codeWrap content ++ scanSub codeMatch f rest := by
  have htake : (content ++ '`' :: rest).takeWhile (· != '`') = content :=
    takeWhile_append_block (fun c hc => by simpa using hfree c hc) (by simp)
  have hdrop : (content ++ '`' :: rest).dropWhile (· != '`') = '`' :: rest :=
    dropWhile_append_block (fun c hc => by simpa using hfree c hc) (by simp)
  have hm : codeMatch ('`' :: (content ++ '`' :: rest)) =
      some (content.length + 2, codeWrap content) := by
    simp [codeMatch, htake, hdrop, hne]
  simp only [scanSub, hm]
  congr 1
  have hsplit : '`' :: (content ++ '`' :: rest) = ('`' :: content ++ ['`']) ++ rest := by
    simp
  rw [hsplit]
  have hlen : ('`' :: content ++ ['`']).length = content.length + 2 := by
    simp
  rw [← hlen, List.drop_left]

/-! ## Claim C1: inline code spans -/

/-- C1 counterexample: for the input `` `[a](b)` `` the link substitution,
applied after the code-span rewrite, alters the characters that were between
the backticks. -/
theorem c1_counterexample :
    process_inline_formatting "`[a](b)`".data =
      "<code><a href=\"b\">a</a></code>".data ∧
    ¬ Occurs "[a](b)".data (process_inline_formatting "`[a](b)`".data) := by
  constructor
  · rfl
  · decide

/-- C1 amended: the backtick span is rewritten to a code span, but its content
is not in general copied verbatim to the output (see the counterexample).
Sufficient condition, for an input consisting of the span alone: if the content
contains none of the characters backtick, dollar, asterisk and opening bracket,
the formatter output is exactly the code element wrapping the content
verbatim. -/
theorem c1_code_span_amended (content : Str) (hne : content ≠ [])
    (hfree : ∀ c ∈ content, c ≠ '`' ∧ c ≠ '$' ∧ c ≠ '*' ∧ c ≠ '[') :
    process_inline_formatting ('`' :: (content ++ ['`'])) = codeWrap content := by
  have hdol : ∀ c ∈ '`' :: (content ++ ['`']), c ≠ '$' := by
    intro c hc
    rcases List.mem_cons.mp hc with rfl | hc2
    · decide
    · rcases List.mem_append.mp hc2 with hc3 | hc3
      · exact (hfree c hc3).2.1
      · simp only [List.mem_singleton] at hc3
        subst hc3
        decide
  have hstar : ∀ c ∈ '`' :: (content ++ ['`']), (!(c = '*') : Bool) = true := by
    intro c hc
    rcases List.mem_cons.mp hc with rfl | hc2
    · decide
    · rcases List.mem_append.mp hc2 with hc3 | hc3
      · simp [(hfree c hc3).2.2.1]
      · simp only [List.mem_singleton] at hc3
        subst hc3
        decide
  have hbr : ∀ c ∈ codeWrap content, (!(c = '[') : Bool) = true := by
    intro c hc
    simp only [codeWrap, List.mem_append] at hc
    rcases hc with (hc3 | hc3) | hc3
    · revert hc3; revert c; decide
    · simp [(hfree c hc3).2.2.2]
    · revert hc3; revert c; decide
  show restoreMath (protectMath ('`' :: (content ++ ['`']))).2 _ = _
  rw [show protectMath ('`' :: (content ++ ['`'])) =
      ('`' :: (content ++ ['`']), []) from protectAux_no_dollar hdol _ _]
  simp only
  rw [scanSub_of_no_match (fun c cs hP => boldMatch_none (by simpa using hP c (by simp)))
      _ _ hstar,
    scanSub_of_no_match (fun c cs hP => italicMatch_none (by simpa using hP c (by simp)))
      _ _ hstar]
  have hcode : scanSub codeMatch ('`' :: (content ++ ['`'])).length
      ('`' :: (content ++ ['`'])) = codeWrap content := by
    have hlen : ('`' :: (content ++ ['`'])).length = content.length + 2 - 1 + 1 := by
      simp
    rw [hlen, codeSub_step hne (fun c hc => (hfree c hc).1), scanSub_nil,
      List.append_nil]
  rw [hcode,
    scanSub_of_no_match (fun c cs hP => imageMatch_none
      (fun d hd => by simpa using hP d hd)) _ _ hbr,
    scanSub_of_no_match (fun c cs hP => linkMatch_none (by simpa using hP c (by simp)))
      _ _ hbr]
  rfl

/-- Witness for the amended C1 at content `"abc"`. -/
theorem c1_code_span_amended_witness :
    ("abc".data : Str) ≠ [] ∧
    process_inline_formatting ('`' :: ("abc".data ++ ['`'])) = codeWrap "abc".data :=
  ⟨by decide, c1_code_span_amended "abc".data (by decide) (by decide)⟩

/-! ## Occurrence bookkeeping through the five substitution passes -/

theorem occurs_behind_char {u y : Str} (hu : u ≠ []) {d : Char} (hd : d ∉ u)
    (h : Occurs u (d :: y)) : Occurs u y := by
  have h2 : Occurs u ([] ++ d :: y) := by simpa using h
  rcases occurs_split_char h2 with h3 | h3 | h3
  · rcases h3 with ⟨a, b, hab⟩
    exact absurd (by simpa using (List.append_eq_nil.mp
      (List.append_eq_nil.mp hab.symm).1).2) hu
  · exact h3
  · exact absurd h3 hd

theorem occurs_before_char {u x : Str} (hu : u ≠ []) {d : Char} (hd : d ∉ u)
    (h : Occurs u (x ++ [d])) : Occurs u x := by
  rcases occurs_split_char (d := d) (y := []) (by simpa using h) with h3 | h3 | h3
  · exact h3
  · rcases h3 with ⟨a, b, hab⟩
    exact absurd (by simpa using (List.append_eq_nil.mp
      (List.append_eq_nil.mp hab.symm).1).2) hu
  · exact absurd h3 hd

theorem occurs_mid_char {u x y : Str} {d : Char} (hd : d ∉ u)
    (h : Occurs u (x ++ d :: y)) : Occurs u x ∨ Occurs u y := by
  rcases occurs_split_char h with h3 | h3 | h3
  · exact Or.inl h3
  · exact Or.inr h3
  · exact absurd h3 hd

/-- Placeholder-alphabet strings avoid the ASCII punctuation the matchers
consume. -/
theorem phChar_ne {u : Str} (hph : ∀ c ∈ u, phChar c = true) {d : Char}
    (hd : phChar d = false) : d ∉ u := fun hm => by
  rw [hph d hm] at hd
  exact absurd hd (by simp)

theorem boldMatch_eq_some {s : Str} {k : Nat} {rep : Str}
    (h : boldMatch s = some (k, rep)) :
    ∃ content tail, s = '*' :: '*' :: (content ++ '*' :: '*' :: tail) ∧
      k = content.length + 4 ∧ rep = strongWrap content ∧ content ≠ [] ∧
      ∀ c ∈ content, c ≠ '*' := by
  cases s with
  | nil => exact absurd h (by simp [boldMatch])
  | cons c1 s1 =>
    cases s1 with
    | nil => exact absurd h (by simp [boldMatch])
    | cons c2 cs =>
      simp only [boldMatch] at h
      split at h
      · rename_i hcc
        obtain ⟨rfl, rfl⟩ := hcc
        split at h
        · rename_i d1 d2 tail hdrop
          split at h
          · rename_i hcond
            obtain ⟨rfl, rfl, hne⟩ := hcond
            injection h with h2
            injection h2 with h3 h4
            refine ⟨cs.takeWhile (· != '*'), tail, ?_, h3.symm, h4.symm, hne, ?_⟩
            · have := List.takeWhile_append_dropWhile (p := (· != '*')) (l := cs)
              rw [hdrop] at this
              rw [this]
            · intro c hc
              have := List.mem_takeWhile_imp hc
              simpa using this
          · exact absurd h (by simp)
        · exact absurd h (by simp)
      · exact absurd h (by simp)

theorem italicMatch_eq_some {s : Str} {k : Nat} {rep : Str}
    (h : italicMatch s = some (k, rep)) :
    ∃ content tail, s = '*' :: (content ++ '*' :: tail) ∧
      k = content.length + 2 ∧ rep = emWrap content ∧ content ≠ [] ∧
      ∀ c ∈ content, c ≠ '*' := by
  cases s with
  | nil => exact absurd h (by simp [italicMatch])
  | cons c1 cs =>
    simp only [italicMatch] at h
    split at h
    · rename_i hc1
      subst hc1
      split at h
      · rename_i d1 tail hdrop
        split at h
        · rename_i hne
          injection h with h2
          injection h2 with h3 h4
          have hd1 : d1 = '*' := by
            have := List.head?_dropWhile_not (p := (· != '*')) (l := cs)
            rw [hdrop] at this
            simpa using this
          subst hd1
          refine ⟨cs.takeWhile (· != '*'), tail, ?_, h3.symm, h4.symm, hne, ?_⟩
          · have := List.takeWhile_append_dropWhile (p := (· != '*')) (l := cs)
            rw [hdrop] at this
            rw [this]
          · intro c hc
            have := List.mem_takeWhile_imp hc
            simpa using this
        · exact absurd h (by simp)
      · exact absurd h (by simp)
    · exact absurd h (by simp)

theorem codeMatch_eq_some {s : Str} {k : Nat} {rep : Str}
    (h : codeMatch s = some (k, rep)) :
    ∃ content tail, s = '`' :: (content ++ '`' :: tail) ∧
      k = content.length + 2 ∧ rep = codeWrap content ∧ content ≠ [] ∧
      ∀ c ∈ content, c ≠ '`' := by
  cases s with
  | nil => exact absurd h (by simp [codeMatch])
  | cons c1 cs =>
    simp only [codeMatch] at h
    split at h
    · rename_i hc1
      subst hc1
      split at h
      · rename_i d1 tail hdrop
        split at h
        · rename_i hne
          injection h with h2
          injection h2 with h3 h4
          have hd1 : d1 = '`' := by
            have := List.head?_dropWhile_not (p := (· != '`')) (l := cs)
            rw [hdrop] at this
            simpa using this
          subst hd1
          refine ⟨cs.takeWhile (· != '`'), tail, ?_, h3.symm, h4.symm, hne, ?_⟩
          · have := List.takeWhile_append_dropWhile (p := (· != '`')) (l := cs)
            rw [hdrop] at this
            rw [this]
          · intro c hc
            have := List.mem_takeWhile_imp hc
            simpa using this
        · exact absurd h (by simp)
      · exact absurd h (by simp)
    · exact absurd h (by simp)

theorem imageMatch_eq_some {s : Str} {k : Nat} {rep : Str}
    (h : imageMatch s = some (k, rep)) :
    ∃ alt url tail, s = '!' :: '[' :: (alt ++ ']' :: '(' :: (url ++ ')' :: tail)) ∧
      k = 2 + alt.length + 2 + url.length + 1 ∧ rep = imgWrap alt url ∧
      url ≠ [] ∧ (∀ c ∈ alt, c ≠ ']') ∧ ∀ c ∈ url, c ≠ ')' := by
  cases s with
  | nil => exact absurd h (by simp [imageMatch])
  | cons c1 s1 =>
    cases s1 with
    | nil => exact absurd h (by simp [imageMatch])
    | cons c2 cs =>
      simp only [imageMatch] at h
      split at h
      · rename_i hcc
        obtain ⟨rfl, rfl⟩ := hcc
        split at h
        · rename_i d1 d2 cs2 hdrop
          split at h
          · rename_i hd2
            subst hd2
            split at h
            · rename_i e1 tail2 hdrop2
              split at h
              · rename_i hne
                injection h with h2
                injection h2 with h3 h4
                have hd1 : d1 = ']' := by
                  have := List.head?_dropWhile_not (p := (· != ']')) (l := cs)
                  rw [hdrop] at this
                  simpa using this
                subst hd1
                have he1 : e1 = ')' := by
                  have := List.head?_dropWhile_not (p := (· != ')')) (l := cs2)
                  rw [hdrop2] at this
                  simpa using this
                subst he1
                refine ⟨cs.takeWhile (· != ']'), cs2.takeWhile (· != ')'), tail2,
                  ?_, h3.symm, h4.symm, hne, ?_, ?_⟩
                · have e2 := List.takeWhile_append_dropWhile (p := (· != ']')) (l := cs)
                  rw [hdrop] at e2
                  have e3 := List.takeWhile_append_dropWhile (p := (· != ')')) (l := cs2)
                  rw [hdrop2] at e3
                  rw [e3, e2]
                · intro c hc
                  simpa using List.mem_takeWhile_imp hc
                · intro c hc
                  simpa using List.mem_takeWhile_imp hc
              · exact absurd h (by simp)
            · exact absurd h (by simp)
          · exact absurd h (by simp)
        · exact absurd h (by simp)
      · exact absurd h (by simp)

theorem linkMatch_eq_some {s : Str} {k : Nat} {rep : Str}
    (h : linkMatch s = some (k, rep)) :
    ∃ text url tail, s = '[' :: (text ++ ']' :: '(' :: (url ++ ')' :: tail)) ∧
      k = 1 + text.length + 2 + url.length + 1 ∧ rep = aWrap text url ∧
      text ≠ [] ∧ url ≠ [] ∧ (∀ c ∈ text, c ≠ ']') ∧ ∀ c ∈ url, c ≠ ')' := by
  cases s with
  | nil => exact absurd h (by simp [linkMatch])
  | cons c1 cs =>
    simp only [linkMatch] at h
    split at h
    · rename_i hc1
      subst hc1
      split at h
      · rename_i d1 d2 cs2 hdrop
        split at h
        · rename_i hd2
          subst hd2
          split at h
          · rename_i e1 tail2 hdrop2
            split at h
            · rename_i hne
              injection h with h2
              injection h2 with h3 h4
              have hd1 : d1 = ']' := by
                have := List.head?_dropWhile_not (p := (· != ']')) (l := cs)
                rw [hdrop] at this
                simpa using this
              subst hd1
              have he1 : e1 = ')' := by
                have := List.head?_dropWhile_not (p := (· != ')')) (l := cs2)
                rw [hdrop2] at this
                simpa using this
              subst he1
              refine ⟨cs.takeWhile (· != ']'), cs2.takeWhile (· != ')'), tail2,
                ?_, h3.symm, h4.symm, hne.1, hne.2, ?_, ?_⟩
              · have e2 := List.takeWhile_append_dropWhile (p := (· != ']')) (l := cs)
                rw [hdrop] at e2
                have e3 := List.takeWhile_append_dropWhile (p := (· != ')')) (l := cs2)
                rw [hdrop2] at e3
                rw [e3, e2]
              · intro c hc
                simpa using List.mem_takeWhile_imp hc
              · intro c hc
                simpa using List.mem_takeWhile_imp hc
            · exact absurd h (by simp)
          · exact absurd h (by simp)
        · exact absurd h (by simp)
      · exact absurd h (by simp)
    · exact absurd h (by simp)

theorem imageMatch_none_head {c : Char} {cs : Str} (h : c ≠ '!') :
    imageMatch (c :: cs) = none := by
  cases cs with
  | nil => rfl
  | cons c2 cs2 => simp [imageMatch, h]

/-- Coverage: a match whose consumed region is `region` (ending in a
character outside `u`) either lies left of the `u`-occurrence or swallows it,
in which case `u` occurs in the replacement. -/
theorem cov_of_shape {u rep : Str} {s : Str} {k : Nat} (region rest : Str) (hu : u ≠ [])
    (hreg : Occurs u region → Occurs u rep)
    (hlast : ∃ rl rs, region = rs ++ [rl] ∧ rl ∉ u)
    (hs : s = region ++ rest) (hk : k = region.length) :
    ∀ a b, s = a ++ u ++ b → k ≤ a.length ∨ Occurs u rep := by
  intro a b hab
  have h : region ++ rest = a ++ u ++ b := by rw [← hs, hab]
  rcases occurs_align h hu with h2 | h2 | ⟨-, ⟨lc, hlc, hlcmem⟩⟩
  · exact Or.inr (hreg h2)
  · exact Or.inl (hk ▸ h2.1)
  · obtain ⟨rl, rs, hrl, hrlnot⟩ := hlast
    rw [hrl, List.getLast?_concat] at hlc
    injection hlc with hlc2
    exact absurd (hlc2 ▸ hlcmem) hrlnot

theorem occurs_not_singleton {u : Str} (hu : u ≠ []) {d : Char} (hd : d ∉ u)
    (h : Occurs u [d]) : False := by
  rcases occurs_singleton_cases h with rfl | rfl
  · exact hu rfl
  · exact hd (by simp)

theorem boldMatch_cov {u : Str} (hu : u ≠ []) (hph : ∀ c ∈ u, phChar c = true) :
    ∀ s k rep a b, boldMatch s = some (k, rep) → s = a ++ u ++ b →
      k ≤ a.length ∨ Occurs u rep := by
  intro s k rep a b hm hab
  obtain ⟨content, tail, hs, hk, hrep, -, -⟩ := boldMatch_eq_some hm
  have hstar : '*' ∉ u := phChar_ne hph (by decide)
  refine cov_of_shape ('*' :: '*' :: (content ++ '*' :: ['*'])) tail
    hu ?_ ?_ ?_ ?_ a b hab
  · intro hocc
    have o2 := occurs_behind_char hu hstar (occurs_behind_char hu hstar hocc)
    rcases occurs_mid_char hstar o2 with o3 | o3
    · rw [hrep]
      exact occurs_append_right (occurs_append_left o3 _) _
    · exact absurd o3 (fun o4 => occurs_not_singleton hu hstar o4)
  · exact ⟨'*', '*' :: '*' :: (content ++ ['*']), by simp, hstar⟩
  · rw [hs]; simp
  · rw [hk]
    simp only [List.length_cons, List.length_append, List.length_nil]
    try omega

theorem italicMatch_cov {u : Str} (hu : u ≠ []) (hph : ∀ c ∈ u, phChar c = true) :
    ∀ s k rep a b, italicMatch s = some (k, rep) → s = a ++ u ++ b →
      k ≤ a.length ∨ Occurs u rep := by
  intro s k rep a b hm hab
  obtain ⟨content, tail, hs, hk, hrep, -, -⟩ := italicMatch_eq_some hm
  have hstar : '*' ∉ u := phChar_ne hph (by decide)
  refine cov_of_shape ('*' :: (content ++ ['*'])) tail
    hu ?_ ?_ ?_ ?_ a b hab
  · intro hocc
    have o2 := occurs_behind_char hu hstar hocc
    have o3 := occurs_before_char hu hstar o2
    rw [hrep]
    exact occurs_append_right (occurs_append_left o3 _) _
  · exact ⟨'*', '*' :: content, by simp, hstar⟩
  · rw [hs]; simp
  · rw [hk]
    simp only [List.length_cons, List.length_append, List.length_nil]
    try omega

theorem codeMatch_cov {u : Str} (hu : u ≠ []) (hph : ∀ c ∈ u, phChar c = true) :
    ∀ s k rep a b, codeMatch s = some (k, rep) → s = a ++ u ++ b →
      k ≤ a.length ∨ Occurs u rep := by
  intro s k rep a b hm hab
  obtain ⟨content, tail, hs, hk, hrep, -, -⟩ := codeMatch_eq_some hm
  have htick : '`' ∉ u := phChar_ne hph (by decide)
  refine cov_of_shape ('`' :: (content ++ ['`'])) tail
    hu ?_ ?_ ?_ ?_ a b hab
  · intro hocc
    have o2 := occurs_behind_char hu htick hocc
    have o3 := occurs_before_char hu htick o2
    rw [hrep]
    exact occurs_append_right (occurs_append_left o3 _) _
  · exact ⟨'`', '`' :: content, by simp, htick⟩
  · rw [hs]; simp
  · rw [hk]
    simp only [List.length_cons, List.length_append, List.length_nil]
    try omega

theorem imageMatch_cov {u : Str} (hu : u ≠ []) (hph : ∀ c ∈ u, phChar c = true) :
    ∀ s k rep a b, imageMatch s = some (k, rep) → s = a ++ u ++ b →
      k ≤ a.length ∨ Occurs u rep := by
  intro s k rep a b hm hab
  obtain ⟨alt, url, tail, hs, hk, hrep, -, -, -⟩ := imageMatch_eq_some hm
  have hbang : '!' ∉ u := phChar_ne hph (by decide)
  have hlb : '[' ∉ u := phChar_ne hph (by decide)
  have hrb : ']' ∉ u := phChar_ne hph (by decide)
  have hlp : '(' ∉ u := phChar_ne hph (by decide)
  have hrp : ')' ∉ u := phChar_ne hph (by decide)
  refine cov_of_shape
    ('!' :: '[' :: (alt ++ ']' :: '(' :: (url ++ [')'])))
    tail hu ?_ ?_ ?_ ?_ a b hab
  · intro hocc
    have o2 := occurs_behind_char hu hlb (occurs_behind_char hu hbang hocc)
    rcases occurs_mid_char hrb o2 with o3 | o3
    · rw [hrep]
      exact occurs_append_right (occurs_append_left o3 _) _
    · have o4 := occurs_before_char hu hrp (occurs_behind_char hu hlp o3)
      rw [hrep]
      exact occurs_append_right (occurs_append_right
        (occurs_append_right (occurs_append_left o4 _) _) _) _
  · exact ⟨')', '!' :: '[' :: (alt ++ ']' :: '(' :: url), by simp, hrp⟩
  · rw [hs]; simp
  · rw [hk]
    simp only [List.length_cons, List.length_append, List.length_nil]
    try omega

theorem linkMatch_cov {u : Str} (hu : u ≠ []) (hph : ∀ c ∈ u, phChar c = true) :
    ∀ s k rep a b, linkMatch s = some (k, rep) → s = a ++ u ++ b →
      k ≤ a.length ∨ Occurs u rep := by
  intro s k rep a b hm hab
  obtain ⟨text, url, tail, hs, hk, hrep, -, -, -, -⟩ := linkMatch_eq_some hm
  have hlb : '[' ∉ u := phChar_ne hph (by decide)
  have hrb : ']' ∉ u := phChar_ne hph (by decide)
  have hlp : '(' ∉ u := phChar_ne hph (by decide)
  have hrp : ')' ∉ u := phChar_ne hph (by decide)
  refine cov_of_shape ('[' :: (text ++ ']' :: '(' :: (url ++ [')'])))
    tail hu ?_ ?_ ?_ ?_ a b hab
  · intro hocc
    have o2 := occurs_behind_char hu hlb hocc
    rcases occurs_mid_char hrb o2 with o3 | o3
    · rw [hrep]
      exact occurs_append_right (occurs_append_left o3 _) _
    · have o4 := occurs_before_char hu hrp (occurs_behind_char hu hlp o3)
      rw [hrep]
      exact occurs_append_right (occurs_append_right
        (occurs_append_right (occurs_append_left o4 _) _) _) _
  · exact ⟨')', '[' :: (text ++ ']' :: '(' :: url), by simp, hrp⟩
  · rw [hs]; simp
  · rw [hk]
    simp only [List.length_cons, List.length_append, List.length_nil]
    try omega

theorem phChar_head_ne {u2 : Str} {u : Str} {c : Char} {u3 : Str}
    (hph : ∀ d ∈ u, phChar d = true) (hsuf : u2 <:+ u) (hu2 : u2 = c :: u3)
    {d : Char} (hd : phChar d = false) : c ≠ d := by
  intro hcd
  have hc : c ∈ u := hsuf.subset (hu2 ▸ List.mem_cons_self c u3)
  exact absurd (hph d (hcd ▸ hc)) (by simp [hd])

theorem boldSub_preserves {u : Str} (hu : u ≠ []) (hph : ∀ c ∈ u, phChar c = true)
    (fuel : Nat) (t : Str) (h : Occurs u t) : Occurs u (scanSub boldMatch fuel t) := by
  refine scanSub_preserves ?_ (boldMatch_cov hu hph) fuel t h
  intro u2 b hne hsuf
  cases hu2 : u2 with
  | nil => exact absurd hu2 hne
  | cons c u3 =>
    subst hu2
    exact boldMatch_none (phChar_head_ne hph hsuf rfl (by decide))

theorem italicSub_preserves {u : Str} (hu : u ≠ []) (hph : ∀ c ∈ u, phChar c = true)
    (fuel : Nat) (t : Str) (h : Occurs u t) : Occurs u (scanSub italicMatch fuel t) := by
  refine scanSub_preserves ?_ (italicMatch_cov hu hph) fuel t h
  intro u2 b hne hsuf
  cases hu2 : u2 with
  | nil => exact absurd hu2 hne
  | cons c u3 =>
    subst hu2
    exact italicMatch_none (phChar_head_ne hph hsuf rfl (by decide))

theorem codeSub_preserves {u : Str} (hu : u ≠ []) (hph : ∀ c ∈ u, phChar c = true)
    (fuel : Nat) (t : Str) (h : Occurs u t) : Occurs u (scanSub codeMatch fuel t) := by
  refine scanSub_preserves ?_ (codeMatch_cov hu hph) fuel t h
  intro u2 b hne hsuf
  cases hu2 : u2 with
  | nil => exact absurd hu2 hne
  | cons c u3 =>
    subst hu2
    exact codeMatch_none (phChar_head_ne hph hsuf rfl (by decide))

theorem imageSub_preserves {u : Str} (hu : u ≠ []) (hph : ∀ c ∈ u, phChar c = true)
    (fuel : Nat) (t : Str) (h : Occurs u t) : Occurs u (scanSub imageMatch fuel t) := by
  refine scanSub_preserves ?_ (imageMatch_cov hu hph) fuel t h
  intro u2 b hne hsuf
  cases hu2 : u2 with
  | nil => exact absurd hu2 hne
  | cons c u3 =>
    subst hu2
    exact imageMatch_none_head (phChar_head_ne hph hsuf rfl (by decide))

theorem linkSub_preserves {u : Str} (hu : u ≠ []) (hph : ∀ c ∈ u, phChar c = true)
    (fuel : Nat) (t : Str) (h : Occurs u t) : Occurs u (scanSub linkMatch fuel t) := by
  refine scanSub_preserves ?_ (linkMatch_cov hu hph) fuel t h
  intro u2 b hne hsuf
  cases hu2 : u2 with
  | nil => exact absurd hu2 hne
  | cons c u3 =>
    subst hu2
    exact linkMatch_none (phChar_head_ne hph hsuf rfl (by decide))

/-! ## The protection phase on a well-formed span -/

theorem findSpan_structured {pre content post : Str}
    (hpre : ∀ c ∈ pre, c ≠ '$') (hcont : ∀ c ∈ content, c ≠ '$')
    (htrig : content.any isMathTrigger = true) :
    findSpan (pre ++ '$' :: (content ++ '$' :: post)) = some (pre, content, post) := by
  induction pre with
  | nil =>
    have htake : (content ++ '$' :: post).takeWhile (· != '$') = content :=
      takeWhile_append_block (fun c hc => by simpa using hcont c hc) (by simp)
    have hdrop : (content ++ '$' :: post).dropWhile (· != '$') = '$' :: post :=
      dropWhile_append_block (fun c hc => by simpa using hcont c hc) (by simp)
    simp [findSpan, hdrop, htake, htrig]
  | cons c pre2 ih =>
    have hc : c ≠ '$' := hpre c (by simp)
    simp [findSpan, hc, ih (fun d hd => hpre d (List.mem_cons_of_mem _ hd))]

set_option maxRecDepth 8000 in
theorem findSpan_eq_some :
    ∀ {s a c r : Str}, findSpan s = some (a, c, r) → s = a ++ '$' :: (c ++ '$' :: r) := by
  intro s
  induction s with
  | nil => intro a c r h; simp [findSpan] at h
  | cons c0 cs ih =>
    intro a c r h
    simp only [findSpan] at h
    by_cases hc0 : c0 = '$'
    · rw [if_pos hc0] at h
      cases hdw : cs.dropWhile (· != '$') with
      | nil =>
        rw [hdw] at h
        cases hfs : findSpan cs with
        | none => rw [hfs] at h; simp at h
        | some p =>
          obtain ⟨a2, c2, r2⟩ := p
          rw [hfs] at h
          have h3 : (c0 :: a2, c2, r2) = (a, c, r) := Option.some.inj h
          injection h3 with ha hcr
          injection hcr with hcc hrr
          subst ha hcc hrr
          rw [ih hfs]
          simp
      | cons d rest2 =>
        rw [hdw] at h
        have h5 : (if (cs.takeWhile (· != '$')).any isMathTrigger = true then
            some (([] : Str), cs.takeWhile (· != '$'), rest2)
          else (findSpan cs).map (fun p => (c0 :: p.1, p.2.1, p.2.2))) =
            some (a, c, r) := h
        clear h
        by_cases htr : (cs.takeWhile (· != '$')).any isMathTrigger = true
        · rw [if_pos htr] at h5
          have h3 : (([] : Str), cs.takeWhile (· != '$'), rest2) = (a, c, r) :=
            Option.some.inj h5
          injection h3 with ha hcr
          injection hcr with hcc hrr
          subst ha hcc hrr
          have hd : d = '$' := by
            have := List.head?_dropWhile_not (p := (· != '$')) (l := cs)
            rw [hdw] at this
            simpa using this
          subst hd hc0
          have := List.takeWhile_append_dropWhile (p := (· != '$')) (l := cs)
          rw [hdw] at this
          simp [this]
        · rw [if_neg htr] at h5
          cases hfs : findSpan cs with
          | none => rw [hfs] at h5; simp at h5
          | some p =>
            obtain ⟨a2, c2, r2⟩ := p
            rw [hfs] at h5
            have h3 : (c0 :: a2, c2, r2) = (a, c, r) := Option.some.inj h5
            injection h3 with ha hcr
            injection hcr with hcc hrr
            subst ha hcc hrr
            rw [ih hfs]
            simp
    · rw [if_neg hc0] at h
      cases hfs : findSpan cs with
      | none => rw [hfs] at h; simp at h
      | some p =>
        obtain ⟨a2, c2, r2⟩ := p
        rw [hfs] at h
        have h3 : (c0 :: a2, c2, r2) = (a, c, r) := Option.some.inj h
        injection h3 with ha hcr
        injection hcr with hcc hrr
        subst ha hcc hrr
        rw [ih hfs]
        simp

theorem protectAux_structured {pre content post : Str}
    (hpre : ∀ c ∈ pre, c ≠ '$') (hcont : ∀ c ∈ content, c ≠ '$')
    (htrig : content.any isMathTrigger = true) (f n : Nat) :
    protectAux (f + 1) n (pre ++ '$' :: (content ++ '$' :: post)) =
      (pre ++ placeholder n ++ (protectAux f (n + 1) post).1,
       (placeholder n, mathWrap content) :: (protectAux f (n + 1) post).2) := by
  simp [protectAux, findSpan_structured hpre hcont htrig]

theorem protectAux_entries :
    ∀ fuel n {s : Str} {e : Str × Str}, e ∈ (protectAux fuel n s).2 →
      ∃ k c, e = (placeholder k, mathWrap c) ∧ Occurs c s := by
  intro fuel
  induction fuel with
  | zero => intro n s e he; simp [protectAux] at he
  | succ f ih =>
    intro n s e he
    simp only [protectAux] at he
    cases hfs : findSpan s with
    | none => rw [hfs] at he; simp at he
    | some p =>
      obtain ⟨a, c0, r⟩ := p
      rw [hfs] at he
      have hdecomp := findSpan_eq_some hfs
      simp only [List.mem_cons] at he
      rcases he with rfl | he2
      · exact ⟨n, c0, rfl, ⟨a ++ ['$'], '$' :: r, by simp [hdecomp]⟩⟩
      · obtain ⟨k, c1, hec, hocc⟩ := ih (n + 1) he2
        refine ⟨k, c1, hec, hocc.trans (occurs_of_suffix ⟨a ++ '$' :: c0 ++ ['$'], ?_⟩)⟩
        simp [hdecomp]

theorem mathWrap_getLast? (c : Str) : (mathWrap c).getLast? = some ')' := by
  have h : mathWrap c = ('\\' :: '(' :: (c ++ ['\\'])) ++ [')'] := by simp [mathWrap]
  rw [h, List.getLast?_concat]

/-- Restoration of the remaining placeholders keeps the restored span and
introduces no occurrence of the already-restored placeholder. -/
theorem restore_fold_keeps (w : Str) (hw : ¬ Occurs phPrefix w) :
    ∀ (M : List (Str × Str)) (t : Str),
      (∀ e ∈ M, ∃ k c, e = (placeholder k, mathWrap c) ∧ ¬ Occurs phPrefix c) →
      Occurs (mathWrap w) t → ¬ Occurs (placeholder 0) t →
      Occurs (mathWrap w) (M.foldl (fun acc e => replaceAll acc e.1 e.2) t) ∧
      ¬ Occurs (placeholder 0) (M.foldl (fun acc e => replaceAll acc e.1 e.2) t) := by
  intro M
  induction M with
  | nil => exact fun t _ h1 h2 => ⟨h1, h2⟩
  | cons e M2 ih =>
    intro t hM h1 h2
    obtain ⟨k, c, rfl, hc⟩ := hM e (by simp)
    simp only [List.foldl_cons]
    refine ih _ (fun e2 he2 => hM e2 (List.mem_cons_of_mem _ he2)) ?_ ?_
    · refine replaceAll_preserves ?_ ?_ ?_ ?_ t h1
      · intro hq
        exact hw (occurs_phPrefix_of_placeholder
          (occurs_mathWrap (placeholder_ne_nil k) (placeholder_phChar k) hq))
      · intro hq
        have hbs : '\\' ∈ placeholder k := mem_of_occurs hq (by simp [mathWrap])
        exact absurd (placeholder_phChar k _ hbs) (by decide)
      · intro uh hh
        have huh : uh = '\\' := by simpa [mathWrap] using hh.symm
        subst huh
        intro hmem
        exact absurd (placeholder_phChar k _ hmem) (by decide)
      · intro ul hl
        rw [mathWrap_getLast?] at hl
        have hul : ul = ')' := by simpa using hl.symm
        subst hul
        intro hmem
        exact absurd (placeholder_phChar k _ hmem) (by decide)
    · refine replaceAll_no_creation (placeholder_ne_nil 0) (placeholder_phChar 0)
        ?_ (mathWrap_shape_head c) (mathWrap_shape_last c) t h2
      intro hq
      exact hc (occurs_phPrefix_of_placeholder
        (occurs_mathWrap (placeholder_ne_nil 0) (placeholder_phChar 0) hq))

/-! ## Claim C5: math protection round-trip -/

/-- C5 counterexample.  First input: in `$a+b$c*d$` the span `$c*d$` has
content matching the protected pattern, yet the output does not contain it
rewritten with parenthesis delimiters (the leftmost match consumes the shared
dollar).  Second input: a paragraph whose math span itself spells the literal
placeholder token makes the output contain that token. -/
theorem c5_counterexample :
    (("c*d".data : Str).any isMathTrigger = true ∧
      Occurs ('$' :: ("c*d".data ++ ['$'])) "$a+b$c*d$".data ∧
      ¬ Occurs (mathWrap "c*d".data)
        (process_inline_formatting "$a+b$c*d$".data)) ∧
    (("__MATH_PLACEHOLDER_0__+1".data : Str).any isMathTrigger = true ∧
      Occurs (placeholder 0)
        (process_inline_formatting "$__MATH_PLACEHOLDER_0__+1$".data)) := by
  exact ⟨⟨by decide, by decide, by decide⟩, by decide, by decide⟩

/-- C5 amended: for a paragraph `pre $content$ post` whose span is the
leftmost dollar span (no dollar in `pre` or `content`), whose content matches
the protected pattern, and which does not itself contain the placeholder
token text, the formatter output contains the span rewritten with
parenthesis-style delimiters and does not contain the placeholder token used
for that span. -/
theorem c5_math_protection_amended (pre content post : Str)
    (hpre : ∀ c ∈ pre, c ≠ '$') (hcont : ∀ c ∈ content, c ≠ '$')
    (htrig : content.any isMathTrigger = true)
    (hph : ¬ Occurs phPrefix (pre ++ '$' :: (content ++ '$' :: post))) :
    Occurs (mathWrap content)
      (process_inline_formatting (pre ++ '$' :: (content ++ '$' :: post))) ∧
    ¬ Occurs (placeholder 0)
      (process_inline_formatting (pre ++ '$' :: (content ++ '$' :: post))) := by
  obtain ⟨f, hf⟩ : ∃ f, (pre ++ '$' :: (content ++ '$' :: post)).length = f + 1 := by
    refine ⟨(pre ++ '$' :: (content ++ '$' :: post)).length - 1, ?_⟩
    simp only [List.length_append, List.length_cons]
    omega
  have hprot : protectMath (pre ++ '$' :: (content ++ '$' :: post)) =
      (pre ++ placeholder 0 ++ (protectAux f 1 post).1,
       (placeholder 0, mathWrap content) :: (protectAux f 1 post).2) := by
    show protectAux (pre ++ '$' :: (content ++ '$' :: post)).length 0
      (pre ++ '$' :: (content ++ '$' :: post)) = _
    rw [hf]
    exact protectAux_structured hpre hcont htrig f 0
  have hpne := placeholder_ne_nil 0
  have hphc := placeholder_phChar 0
  have hcontC : ¬ Occurs phPrefix content := fun hq =>
    hph (hq.trans ⟨pre ++ ['$'], '$' :: post, by simp⟩)
  have hpostC : ¬ Occurs phPrefix post := fun hq =>
    hph (hq.trans ⟨pre ++ '$' :: content ++ ['$'], [], by simp⟩)
  have hv0 : ¬ Occurs (placeholder 0) (mathWrap content) := fun hq =>
    hcontC (occurs_phPrefix_of_placeholder (occurs_mathWrap hpne hphc hq))
  have hMent : ∀ e ∈ (protectAux f 1 post).2,
      ∃ k c, e = (placeholder k, mathWrap c) ∧ ¬ Occurs phPrefix c := by
    intro e he
    obtain ⟨k, c, rfl, hocc⟩ := protectAux_entries f 1 he
    exact ⟨k, c, rfl, fun hq => hpostC (hq.trans hocc)⟩
  simp only [process_inline_formatting, hprot]
  set T1 := (protectAux f 1 post).1 with hT1def
  set M := (protectAux f 1 post).2 with hMdef
  set p1 := pre ++ placeholder 0 ++ T1 with hp1def
  set t1 := scanSub boldMatch p1.length p1 with ht1def
  set t2 := scanSub italicMatch t1.length t1 with ht2def
  set t3 := scanSub codeMatch t2.length t2 with ht3def
  set t4 := scanSub imageMatch t3.length t3 with ht4def
  set t5 := scanSub linkMatch t4.length t4 with ht5def
  have h0 : Occurs (placeholder 0) p1 := ⟨pre, T1, hp1def⟩
  have h1 : Occurs (placeholder 0) t1 := ht1def ▸ boldSub_preserves hpne hphc _ _ h0
  have h2 : Occurs (placeholder 0) t2 := ht2def ▸ italicSub_preserves hpne hphc _ _ h1
  have h3 : Occurs (placeholder 0) t3 := ht3def ▸ codeSub_preserves hpne hphc _ _ h2
  have h4 : Occurs (placeholder 0) t4 := ht4def ▸ imageSub_preserves hpne hphc _ _ h3
  have h5 : Occurs (placeholder 0) t5 := ht5def ▸ linkSub_preserves hpne hphc _ _ h4
  show Occurs (mathWrap content)
      (restoreMath ((placeholder 0, mathWrap content) :: M) t5) ∧
    ¬ Occurs (placeholder 0)
      (restoreMath ((placeholder 0, mathWrap content) :: M) t5)
  simp only [restoreMath, List.foldl_cons]
  refine restore_fold_keeps content hcontC M _ hMent ?_ ?_
  · exact replaceAll_inserts hpne t5 h5
  · exact replaceAll_removes hpne hphc hv0 (mathWrap_shape_head content)
      (mathWrap_shape_last content) t5

/-- Witness for the amended C5 at the paragraph `see $a+b$ ok`. -/
theorem c5_math_protection_amended_witness :
    (∀ c ∈ ("see ".data : Str), c ≠ '$') ∧
    (∀ c ∈ ("a+b".data : Str), c ≠ '$') ∧
    ("a+b".data : Str).any isMathTrigger = true ∧
    ¬ Occurs phPrefix ("see ".data ++ '$' :: ("a+b".data ++ '$' :: " ok".data)) ∧
    Occurs (mathWrap "a+b".data)
      (process_inline_formatting
        ("see ".data ++ '$' :: ("a+b".data ++ '$' :: " ok".data))) ∧
    ¬ Occurs (placeholder 0)
      (process_inline_formatting
        ("see ".data ++ '$' :: ("a+b".data ++ '$' :: " ok".data))) := by
  have h := c5_math_protection_amended "see ".data "a+b".data " ok".data
    (by decide) (by decide) (by decide) (by decide)
  exact ⟨by decide, by decide, by decide, by decide, h.1, h.2⟩

/-! ## Progress facts for the block classifier -/

theorem takeCont_rest_le : ∀ ls : List Str, (takeCont ls).2.length ≤ ls.length := by
  intro ls
  induction ls with
  | nil => simp [takeCont]
  | cons l ls2 ih =>
    simp only [takeCont]
    split
    · exact le_trans ih (by simp)
    · split
      · simpa using le_trans ih (by simp)
      · simp

theorem olLoopF_rest_le : ∀ fuel ls, (olLoopF fuel ls).2.length ≤ ls.length := by
  intro fuel
  induction fuel with
  | zero => intro ls; simp [olLoopF]
  | succ f ih =>
    intro ls
    cases ls with
    | nil => simp [olLoopF]
    | cons l ls2 =>
      simp only [olLoopF]
      split
      · exact le_trans (le_trans (ih _) (takeCont_rest_le ls2)) (by simp)
      · split
        · split
          · simp
          · split
            · exact le_trans (ih _) (by simp)
            · simp
        · simp

theorem olLoop_rest_le_of_item {l : Str} {ls : List Str}
    (h : isOLItem (trim l) = true) :
    (olLoop (l :: ls)).2.length ≤ ls.length := by
  show (olLoopF (l :: ls).length (l :: ls)).2.length ≤ ls.length
  rw [List.length_cons]
  simp only [olLoopF, h, if_true]
  exact le_trans (olLoopF_rest_le _ _) (takeCont_rest_le ls)

theorem dropWhile_length_le (p : Str → Bool) (l : List Str) :
    (l.dropWhile p).length ≤ l.length := by
  induction l with
  | nil => simp
  | cons c cs ih =>
    rw [List.dropWhile_cons]
    split
    · exact le_trans ih (by simp)
    · simp

/-- C4: the block classifier is total — with fuel equal to the number of
lines, the main loop consumes its whole input (every branch consumes at
least one line). -/
theorem go_total :
    ∀ fuel inCode inMath lines, lines.length ≤ fuel →
      (go fuel inCode inMath lines).isSome := by
  intro fuel
  induction fuel with
  | zero =>
    intro ic im lines hl
    have : lines = [] := List.length_eq_zero.mp (Nat.le_zero.mp hl)
    subst this
    simp [go]
  | succ f ih =>
    intro ic im lines hl
    cases lines with
    | nil => simp [go]
    | cons l ls =>
      have hls : ls.length ≤ f := by
        simp only [List.length_cons] at hl
        omega
      have hdw : ∀ (p : Str → Bool), p l = true →
          ((l :: ls).dropWhile p).length ≤ f := by
        intro p hp
        rw [List.dropWhile_cons_of_pos hp]
        exact le_trans (dropWhile_length_le p ls) hls
      rw [go]
      by_cases h1 : startsWithL "```".data l = true
      · rw [if_pos h1]
        by_cases h1a : (!ic) = true
        · rw [if_pos h1a]
          simp only [Option.isSome_map']
          exact ih _ _ _ hls
        · rw [if_neg h1a]
          simp only [Option.isSome_map']
          exact ih _ _ _ hls
      · rw [if_neg h1]
        by_cases h2 : ic = true
        · rw [if_pos h2]
          simp only [Option.isSome_map']
          exact ih _ _ _ hls
        · rw [if_neg h2]
          by_cases h3 : isSingleMath l = true
          · rw [if_pos h3]
            simp only [Option.isSome_map']
            exact ih _ _ _ hls
          · rw [if_neg h3]
            by_cases h4 : trim l = "$$".data
            · rw [if_pos h4]
              by_cases h4a : (!im) = true
              · rw [if_pos h4a]
                simp only [Option.isSome_map']
                exact ih _ _ _ hls
              · rw [if_neg h4a]
                simp only [Option.isSome_map']
                exact ih _ _ _ hls
            · rw [if_neg h4]
              by_cases h5 : im = true
              · rw [if_pos h5]
                simp only [Option.isSome_map']
                exact ih _ _ _ hls
              · rw [if_neg h5]
                by_cases h6 : startsWithL "#".data l = true
                · rw [if_pos h6]
                  simp only [Option.isSome_map']
                  exact ih _ _ _ hls
                · rw [if_neg h6]
                  by_cases h7 : isULStart l = true
                  · rw [if_pos h7]
                    simp only [Option.isSome_map']
                    exact ih _ _ _ (hdw _ h7)
                  · rw [if_neg h7]
                    by_cases h8 : isTableStart l = true
                    · rw [if_pos h8]
                      simp only [Option.isSome_map']
                      refine ih _ _ _ (hdw _ ?_)
                      simp only [isTableStart, Bool.and_eq_true] at h8
                      exact h8.1.1
                    · rw [if_neg h8]
                      by_cases h9 : isOLItem (trim l) = true
                      · rw [if_pos h9]
                        simp only [Option.isSome_map']
                        exact ih _ _ _ (le_trans (olLoop_rest_le_of_item h9) hls)
                      · rw [if_neg h9]
                        by_cases h10 : isQuote l = true
                        · rw [if_pos h10]
                          simp only [Option.isSome_map']
                          exact ih _ _ _ (hdw _ h10)
                        · rw [if_neg h10]
                          by_cases h11 : (trim l).isEmpty = true
                          · rw [if_pos h11]
                            simp only [Option.isSome_map']
                            exact ih _ _ _ hls
                          · rw [if_neg h11]
                            have hpb : paraBreak l = false := by
                              simp only [Bool.not_eq_true] at h1 h6 h9 h11
                              have h7f : isULStart l = false := by
                                simp only [Bool.not_eq_true] at h7
                                exact h7
                              simp only [isULStart, Bool.or_eq_false_iff] at h7f
                              have h10f : startsWithL ">".data (trim l) = false := by
                                simp only [isQuote, Bool.not_eq_true] at h10
                                exact h10
                              simp [paraBreak, h1, h6, h7f.1, h7f.2, h9, h10f, h11]
                            have hrun : ((l :: ls).takeWhile
                                (fun x => !paraBreak x)).isEmpty = false := by
                              rw [List.takeWhile_cons_of_pos
                                (p := fun x => !paraBreak x) (by simp [hpb])]
                              simp
                            rw [if_neg (by simp [hrun])]
                            simp only [Option.isSome_map']
                            exact ih _ _ _ (hdw (fun x => !paraBreak x)
                              (by simp [hpb]))

/-- C4: for every finite input line sequence the classifier terminates with a
fragment sequence — no input can fail to be classified (worst case, a
paragraph). -/
theorem c4_classifier_total (lines : List Str) :
    ∃ frags, convertLines lines = some frags := by
  have h := go_total lines.length false false lines (le_refl _)
  exact Option.isSome_iff_exists.mp h

/-! ## Claim C9: driver success flag -/

/-- C9: the file-level conversion returns `true` exactly when the read and
the write both succeed, and writes nothing when the read fails. -/
theorem c9_driver_flag (fs : FS) :
    ((convert_markdown_to_html fs).1 = true ↔
      fs.readResult.isSome = true ∧ fs.writeOk = true) ∧
    (fs.readResult = none → (convert_markdown_to_html fs).2 = none) := by
  obtain ⟨r, w⟩ := fs
  cases r with
  | none => simp [convert_markdown_to_html]
  | some content =>
    cases w <;> simp [convert_markdown_to_html]

/-! ## Claim C2: table runs -/

/-- C2 counterexample: the line `x | y` contains a pipe but (after trimming)
neither starts nor ends with one, yet it is collected into the table run
started by `| A |`, and the classifier consumes it as a table row rather
than ending the run. -/
theorem c2_counterexample :
    isTableStart "| A |".data = true ∧
    pipeBounded "x | y".data = false ∧
    collectTableLines ["| A |".data, "x | y".data] =
      ["| A |".data, "x | y".data] ∧
    convertLines ["| A |".data, "x | y".data] =
      some ["<table>".data, "<thead>".data, "<tr>".data, "<th>A</th>".data,
        "</tr>".data, "</thead>".data, "<tbody>".data, "<tr>".data,
        "</tr>".data, "</tbody>".data, "</table>".data] := by
  refine ⟨by decide, by decide, by decide, ?_⟩
  decide

/-- C2 amended: the first line of a table run starts and ends (after trim)
with a pipe; every collected line contains a pipe; the run ends at the first
subsequent line that does not contain a pipe. -/
theorem c2_table_run_amended (l : Str) (ls : List Str) (h : isTableStart l = true) :
    pipeBounded l = true ∧
    (∀ x ∈ (l :: ls).takeWhile (fun y => containsC '|' y), containsC '|' x = true) ∧
    (∀ x, (tableRest (l :: ls)).head? = some x → containsC '|' x = false) := by
  refine ⟨?_, ?_, ?_⟩
  · simp only [isTableStart, Bool.and_eq_true] at h
    simp [pipeBounded, h.1.2, h.2]
  · exact fun x hx => List.mem_takeWhile_imp hx
  · intro x hx
    have h2 := List.head?_dropWhile_not (p := fun y => containsC '|' y) (l := l :: ls)
    rw [show tableRest (l :: ls) =
      (l :: ls).dropWhile (fun y => containsC '|' y) from rfl] at hx
    rw [hx] at h2
    simpa using h2

/-- Witness for the amended C2. -/
theorem c2_table_run_amended_witness :
    isTableStart "| A |".data = true ∧
    (pipeBounded "| A |".data = true ∧
      (∀ x ∈ (("| A |".data : Str) :: ["| b |".data, "z".data]).takeWhile
        (fun y => containsC '|' y), containsC '|' x = true) ∧
      (∀ x, (tableRest (("| A |".data : Str) :: ["| b |".data, "z".data])).head? =
        some x → containsC '|' x = false)) :=
  ⟨by decide, c2_table_run_amended "| A |".data ["| b |".data, "z".data] (by decide)⟩

/-! ## Claim C3: paragraph runs -/

/-- C3 counterexample: a line matching the table marker (and the math-block
delimiter line `$$`) does not break a paragraph run — the paragraph loop of
the source never tests those markers, so such lines are absorbed into the
paragraph. -/
theorem c3_counterexample :
    isTableStart "| a |".data = true ∧ paraBreak "| a |".data = false ∧
    (["hello".data, "| a |".data] : List Str).takeWhile (fun x => !paraBreak x) =
      ["hello".data, "| a |".data] ∧
    convertLines ["hello".data, "| a |".data] = some ["<p>hello | a |</p>".data] ∧
    trim "$$".data = "$$".data ∧ paraBreak "$$".data = false ∧
    convertLines ["hello".data, "$$".data] = some ["<p>hello $$</p>".data] := by
  refine ⟨by decide, by decide, by decide, ?_, by decide, by decide, ?_⟩ <;> decide

/-- C3 amended: a paragraph run consists of contiguous lines matching none of
the six conditions the paragraph loop actually tests (blank, heading marker,
unordered-list marker, ordered-list marker, blockquote marker, code fence) —
table-shaped lines and math-delimiter lines do not end the run; the run ends
at the first line matching one of the six, and is joined with single spaces
and inline-formatted into one paragraph fragment. -/
theorem c3_paragraph_amended (l : Str) (ls : List Str) (f : Nat)
    (h1 : startsWithL "```".data l = false) (h3 : isSingleMath l = false)
    (h4 : trim l ≠ "$$".data) (h6 : startsWithL "#".data l = false)
    (h7 : isULStart l = false) (h8 : isTableStart l = false)
    (h9 : isOLItem (trim l) = false) (h10 : isQuote l = false)
    (h11 : (trim l).isEmpty = false) :
    go (f + 1) false false (l :: ls) =
      (go f false false ((l :: ls).dropWhile (fun x => !paraBreak x))).map
        (fun r => paraFrag ((l :: ls).takeWhile (fun x => !paraBreak x)) :: r) ∧
    (∀ x ∈ (l :: ls).takeWhile (fun x => !paraBreak x), paraBreak x = false) ∧
    (∀ x, ((l :: ls).dropWhile (fun x => !paraBreak x)).head? = some x →
      paraBreak x = true) ∧
    paraFrag ((l :: ls).takeWhile (fun x => !paraBreak x)) =
      "<p>".data ++ process_inline_formatting
        (List.intercalate [' '] ((l :: ls).takeWhile (fun x => !paraBreak x))) ++
        "</p>".data := by
  have h7f := h7
  simp only [isULStart, Bool.or_eq_false_iff] at h7f
  have h10f := h10
  simp only [isQuote] at h10f
  have hpb : paraBreak l = false := by
    simp [paraBreak, h1, h6, h7f.1, h7f.2, h9, h10f, h11]
  refine ⟨?_, ?_, ?_, rfl⟩
  · rw [go, if_neg (by simp [h1]), if_neg (by simp), if_neg (by simp [h3]),
      if_neg h4, if_neg (by simp), if_neg (by simp [h6]), if_neg (by simp [h7]),
      if_neg (by simp [h8]), if_neg (by simp [h9]), if_neg (by simp [h10]),
      if_neg (by simp [h11]),
      if_neg (by
        rw [List.takeWhile_cons_of_pos (p := fun x => !paraBreak x) (by simp [hpb])]
        simp)]
  · intro x hx
    have := List.mem_takeWhile_imp hx
    simpa using this
  · intro x hx
    have h2 := List.head?_dropWhile_not (p := fun x => !paraBreak x) (l := l :: ls)
    rw [hx] at h2
    simpa using h2

/-- Witness for the amended C3 on the line `hello` followed by `| a |`. -/
theorem c3_paragraph_amended_witness :
    startsWithL "```".data "hello".data = false ∧
    go 2 false false ["hello".data, "| a |".data] =
      (go 1 false false ((["hello".data, "| a |".data] : List Str).dropWhile
        (fun x => !paraBreak x))).map
        (fun r => paraFrag ((["hello".data, "| a |".data] : List Str).takeWhile
          (fun x => !paraBreak x)) :: r) := by
  have h := c3_paragraph_amended "hello".data ["| a |".data] 1 (by decide)
    (by decide) (by decide) (by decide) (by decide) (by decide) (by decide)
    (by decide) (by decide)
  exact ⟨by decide, h.1⟩

/-! ## Claim C6: blank lines inside ordered lists -/

/-- C6 counterexample: in `1. a`, blank, blank, `2. b` the first blank line
is followed by another blank line — not by an ordered-list item — yet the
list does not terminate: both items land in one list run. -/
theorem c6_counterexample :
    isOLItem (trim "1. a".data) = true ∧
    isOLItem (trim "".data) = false ∧
    olLoop ["1. a".data, "".data, "".data, "2. b".data] =
      (["<li>a</li>".data, "<li>b</li>".data], []) ∧
    convertLines ["1. a".data, "".data, "".data, "2. b".data] =
      some ["<ol>".data, "<li>a</li>".data, "<li>b</li>".data, "</ol>".data] := by
  refine ⟨by decide, by decide, ?_, ?_⟩ <;> decide

/-- C6 amended: while collecting an item's continuation lines a blank line is
skipped unconditionally (whatever follows it); the list terminates at the
first non-blank line that is neither indented (three spaces or a tab) nor an
ordered-list item. -/
theorem c6_ol_blank_amended :
    (∀ (l : Str) (ls : List Str), (trim l).isEmpty = true →
      takeCont (l :: ls) = takeCont ls) ∧
    (∀ (l : Str) (ls : List Str), (trim l).isEmpty = false → isIndentCont l = false →
      takeCont (l :: ls) = ([], l :: ls)) ∧
    (∀ (fuel : Nat) (l : Str) (ls : List Str), (trim l).isEmpty = false →
      isOLItem (trim l) = false → olLoopF (fuel + 1) (l :: ls) = ([], l :: ls)) := by
  refine ⟨?_, ?_, ?_⟩
  · intro l ls h
    simp [takeCont, h]
  · intro l ls h1 h2
    simp [takeCont, h1, h2]
  · intro fuel l ls h1 h2
    simp [olLoopF, h1, h2]

/-- Witness for the amended C6: a blank line followed by another blank is
skipped; a plain line ends the list. -/
theorem c6_ol_blank_amended_witness :
    (trim "".data).isEmpty = true ∧
    takeCont ["".data, "".data, "2. b".data] = takeCont ["".data, "2. b".data] ∧
    (trim "x".data).isEmpty = false ∧
    olLoopF 3 ["x".data, "1. a".data] = ([], ["x".data, "1. a".data]) :=
  ⟨by decide, c6_ol_blank_amended.1 "".data ["".data, "2. b".data] (by decide),
    by decide, c6_ol_blank_amended.2.2 2 "x".data ["1. a".data] (by decide) (by decide)⟩

/-! ## Claim C10: unterminated code fence -/

theorem go_inCode_escape :
    ∀ f (rest : List Str) (im : Bool), rest.length ≤ f →
      (∀ l ∈ rest, startsWithL "```".data l = false) →
      go f true im rest = some (rest.map escape_html) := by
  intro f
  induction f with
  | zero =>
    intro rest im hl hf
    have : rest = [] := List.length_eq_zero.mp (Nat.le_zero.mp hl)
    subst this
    simp [go]
  | succ f ih =>
    intro rest im hl hf
    cases rest with
    | nil => simp [go]
    | cons l ls =>
      rw [go, if_neg (by simp [hf l (by simp)]), if_pos rfl,
        ih ls im (by simp only [List.length_cons] at hl; omega)
          (fun x hx => hf x (List.mem_cons_of_mem _ hx))]
      rfl

/-- C10: an opening fence with no subsequent closing fence makes every
remaining line an HTML-escaped verbatim line of the code fragment; no
closing fragment is emitted, so the body ends inside the code block. -/
theorem c10_unterminated_fence (fence : Str) (rest : List Str)
    (hfence : startsWithL "```".data fence = true)
    (hrest : ∀ l ∈ rest, startsWithL "```".data l = false) :
    convertLines (fence :: rest) =
      some (openCodeFrag fence :: rest.map escape_html) := by
  show go (fence :: rest).length false false (fence :: rest) = _
  rw [List.length_cons, go, if_pos hfence, if_pos (by simp),
    go_inCode_escape rest.length rest false (le_refl _) hrest]
  rfl

/-- Witness for C10 on a `py` fence followed by two unfenced lines. -/
theorem c10_unterminated_fence_witness :
    startsWithL "```".data "```py".data = true ∧
    convertLines ["```py".data, "code<".data, "x".data] =
      some (openCodeFrag "```py".data ::
        (["code<".data, "x".data] : List Str).map escape_html) :=
  ⟨by decide, c10_unterminated_fence "```py".data ["code<".data, "x".data]
    (by decide) (by decide)⟩

/-! ## Claim C7: headings -/

theorem startsWithL_cons_ne {c d : Char} {p s : Str} (h : c ≠ d) :
    startsWithL (c :: p) (d :: s) = false := by
  simp [startsWithL, List.isPrefixOf, h]

theorem trim_cons_of_head {c : Char} {s : Str} (hc : isPyWS c = false) :
    ∃ t, trim (c :: s) = c :: t := by
  unfold trim
  rw [List.dropWhile_cons_of_neg (by simp [hc])]
  have hz : (c :: s).reverse.dropWhile isPyWS ≠ [] := by
    intro h
    have h2 := List.dropWhile_eq_nil_iff.mp h c (by simp)
    simp [hc] at h2
  have hsuf : (c :: s).reverse.dropWhile isPyWS <:+ (c :: s).reverse :=
    List.dropWhile_suffix _
  have hlast : ((c :: s).reverse.dropWhile isPyWS).getLast? = some c := by
    rw [← suffix_getLast? hsuf hz, List.getLast?_reverse]
    rfl
  cases hzr : ((c :: s).reverse.dropWhile isPyWS).reverse with
  | nil => exact absurd (by simpa using congrArg List.reverse hzr) hz
  | cons d t =>
    refine ⟨t, ?_⟩
    have hd : d = c := by
      have h3 := List.head?_reverse ((c :: s).reverse.dropWhile isPyWS)
      rw [hzr, hlast] at h3
      simpa using h3
    rw [hd]

theorem countHashes_takeWhile (l : Str) :
    countHashes l = (l.takeWhile (· == '#')).length := by
  induction l with
  | nil => rfl
  | cons c r ih =>
    by_cases hc : c = '#'
    · subst hc
      rw [show countHashes ('#' :: r) = countHashes r + 1 from rfl,
        List.takeWhile_cons_of_pos (by simp)]
      simp [ih]
    · have h1 : countHashes (c :: r) = 0 := by
        rw [countHashes.eq_def]
        split
        · rename_i r2 heq
          injection heq with h2 h3
          exact absurd h2 hc
        · rfl
      rw [h1, List.takeWhile_cons_of_neg (by simp [hc])]
      rfl

/-- C7: a line whose first character is `#` is classified as exactly one
heading fragment; the level is the full count of leading hashes (not capped
at six — see the eight-hash instance); `# Title` yields the level-1 fragment
with title `Title` and id `title`. -/
theorem c7_heading (f : Nat) (l : Str) (ls : List Str) (h : l.head? = some '#') :
    go (f + 1) false false (l :: ls) =
      (go f false false ls).map (fun r => headingFrag l :: r) ∧
    countHashes l = (l.takeWhile (· == '#')).length ∧
    convertLines ["# Title".data] = some ["<h1 id=\"title\">Title</h1>".data] ∧
    convertLines ["######## deep".data] =
      some ["<h8 id=\"deep\">deep</h8>".data] := by
  obtain ⟨l2, rfl⟩ : ∃ l2, l = '#' :: l2 := by
    cases l with
    | nil => simp at h
    | cons c cs =>
      refine ⟨cs, ?_⟩
      simp only [List.head?_cons, Option.some.injEq] at h
      rw [h]
  obtain ⟨t, ht⟩ := trim_cons_of_head (c := '#') (s := l2) (by decide)
  refine ⟨?_, countHashes_takeWhile _, by decide, by decide⟩
  rw [go, if_neg (by simp [startsWithL_cons_ne (by decide : ('`' : Char) ≠ '#')]),
    if_neg (by simp),
    if_neg (by simp [isSingleMath, ht,
      startsWithL_cons_ne (by decide : ('$' : Char) ≠ '#')]),
    if_neg (by rw [ht]; simp),
    if_neg (by simp),
    if_pos (by simp [startsWithL, List.isPrefixOf])]

/-- Witness for C7 on the line `## T`. -/
theorem c7_heading_witness :
    ("## T".data : Str).head? = some '#' ∧
    go 1 false false ["## T".data] =
      (go 0 false false []).map (fun r => headingFrag "## T".data :: r) :=
  ⟨by decide, (c7_heading 0 "## T".data [] (by decide)).1⟩

end Md
